import Mathlib

/-!
Verification development for the compute-graph construction pipeline
(compute_graph / cpg components).

The C++ sources are shallowly embedded: `std::map` containers become
key-sorted association lists, `shared_ptr` mutation becomes functional
record update, machine integers become `Int`/`Nat`, and each embedded
function mirrors the control flow of its C++ counterpart
(`ComputeGraph.cpp`, `ComputeGraphBuilder.cpp`, `ComputeGraphAnchor.cpp`,
`ComputeGraphBuilderTrace.cpp`, `ComputeGraphBuilderProcess.cpp`,
`CPGBuilder.cpp`, `CPGAnnotation.cpp`).
-/

set_option autoImplicit false

namespace CG

/-- Node kinds of `ComputeNodeKind` in `ComputeGraphBase.h`, in declaration
order (the order fixes the `static_cast<int>` values used by
`ComputeCanonicalSignature`). -/
inductive ComputeNodeKind where
| Constant | Variable | Parameter
| BinaryOp | UnaryOp | CompareOp
| Load | Store | ArrayAccess | MemberAccess
| Phi | Select | LoopInduction | Loop | Branch
| Call | IntrinsicCall
| Cast | Return | Unknown
deriving DecidableEq, Repr

/-- `static_cast<int>` of a `ComputeNodeKind` value. -/
def ComputeNodeKind.toNat : ComputeNodeKind → Nat
| Constant => 0 | Variable => 1 | Parameter => 2
| BinaryOp => 3 | UnaryOp => 4 | CompareOp => 5
| Load => 6 | Store => 7 | ArrayAccess => 8 | MemberAccess => 9
| Phi => 10 | Select => 11 | LoopInduction => 12 | Loop => 13 | Branch => 14
| Call => 15 | IntrinsicCall => 16
| Cast => 17 | Return => 18 | Unknown => 19

/-- Edge kinds of `ComputeEdgeKind` in `ComputeGraphBase.h`, in declaration
order. -/
inductive ComputeEdgeKind where
| DataFlow | Control | Memory | Call | Return | LoopCarried
deriving DecidableEq, Repr

/-- `static_cast<int>` of a `ComputeEdgeKind` value. -/
def ComputeEdgeKind.toNat : ComputeEdgeKind → Nat
| DataFlow => 0 | Control => 1 | Memory => 2 | Call => 3 | Return => 4
| LoopCarried => 5

/-- Opcodes of `OpCode` in `ComputeGraphBase.h`, in declaration order. -/
inductive OpCode where
| Add | Sub | Mul | Div | Mod
| And | Or | Xor | Shl | Shr
| Neg | Not | BitNot
| Lt | Gt | Le | Ge | Eq | Ne
| Assign | Unknown
deriving DecidableEq, Repr

/-- `static_cast<int>` of an `OpCode` value. -/
def OpCode.toNat : OpCode → Nat
| Add => 0 | Sub => 1 | Mul => 2 | Div => 3 | Mod => 4
| And => 5 | Or => 6 | Xor => 7 | Shl => 8 | Shr => 9
| Neg => 10 | Not => 11 | BitNot => 12
| Lt => 13 | Gt => 14 | Le => 15 | Ge => 16 | Eq => 17 | Ne => 18
| Assign => 19 | Unknown => 20

/-! ### Association lists standing for `std::map<Nat, _>`

An `std::map` keyed by integers is embedded as a key-sorted association
list; iteration over the map is iteration over the list.  `AL.set` is
sorted insertion (replacing an existing binding), matching the map's
iteration order. -/

namespace AL

variable {α : Type}

/-- `map.find(k)` on an association list. -/
def find? (k : Nat) : List (Nat × α) → Option α
| [] => none
| (k', v) :: rest => if k' = k then some v else find? k rest

/-- `map[k] = v`: sorted insertion, replacing an existing binding. -/
def set (k : Nat) (v : α) : List (Nat × α) → List (Nat × α)
| [] => [(k, v)]
| (k', v') :: rest =>
  if k < k' then (k, v) :: (k', v') :: rest
  else if k = k' then (k, v) :: rest
  else (k', v') :: set k v rest

/-- `map.erase(k)`. -/
def erase (k : Nat) : List (Nat × α) → List (Nat × α)
| [] => []
| (k', v') :: rest => if k' = k then rest else (k', v') :: erase k rest

/-- Read with a default value, like `std::map::operator[]` before a write. -/
def getD (l : List (Nat × α)) (k : Nat) (d : α) : α :=
  match find? k l with
  | some v => v
  | none => d

/-- Update the binding of `k` in place if present; otherwise leave the list
unchanged (used where the C++ code guards the access with a lookup). -/
def modify (k : Nat) (f : α → α) : List (Nat × α) → List (Nat × α)
| [] => []
| (k', v') :: rest =>
  if k' = k then (k', f v') :: rest else (k', v') :: modify k f rest

/-- `map[k].push_back`-style update: modify the existing binding or insert
`f d` for the default-constructed `d` (like `std::map::operator[]`). -/
def upsert (k : Nat) (f : α → α) (d : α) (l : List (Nat × α)) : List (Nat × α) :=
  match find? k l with
  | some v => modify k (fun _ => f v) l
  | none => set k (f d) l

end AL

/-- String-keyed property map (`std::map<std::string, std::string>`); only
lookup order-insensitive operations are used by the embedded code. -/
abbrev PropMap := List (String × String)

def PropMap.get (m : PropMap) (k : String) : String :=
  match m.find? (fun p => p.1 == k) with
  | some p => p.2
  | none => ""

def PropMap.set (m : PropMap) (k v : String) : PropMap :=
  match m with
  | [] => [(k, v)]
  | (k', v') :: rest =>
    if k' = k then (k, v) :: rest else (k', v') :: PropMap.set rest k v

/-! ### `ComputeNode`, `ComputeEdge`, `ComputeGraph` (`ComputeGraph.h`) -/

/-- `ComputeNode` (the fields the verified operations read or write). -/
structure ComputeNode where
  kind : ComputeNodeKind
  id : Nat
  name : String := ""
  opCode : OpCode := .Unknown
  inputNodes : List Nat := []
  outputNodes : List Nat := []
  sourceLine : Int := 0
  properties : PropMap := []
deriving DecidableEq, Repr

/-- `ComputeEdge`. -/
structure ComputeEdge where
  id : Nat
  kind : ComputeEdgeKind
  sourceId : Nat
  targetId : Nat
  label : String := ""
deriving DecidableEq, Repr

/-- `ComputeGraph`: node and edge arenas plus adjacency, with the monotonic
ID counters (`nextNodeId` starts at 1: 0 is the reserved invalid ID). -/
structure ComputeGraph where
  nextNodeId : Nat := 1
  nextEdgeId : Nat := 0
  nodes : List (Nat × ComputeNode) := []
  edges : List (Nat × ComputeEdge) := []
  inEdges : List (Nat × List Nat) := []
  outEdges : List (Nat × List Nat) := []
  properties : PropMap := []
deriving DecidableEq, Repr

namespace ComputeGraph

/-- `ComputeGraph::CreateNode`: allocate the next node ID and store a fresh
node; returns the updated graph and the new node. -/
def CreateNode (g : ComputeGraph) (kind : ComputeNodeKind) :
    ComputeGraph × ComputeNode :=
  let node : ComputeNode := { kind := kind, id := g.nextNodeId }
  ({ g with nodes := AL.set node.id node g.nodes,
            nextNodeId := g.nextNodeId + 1 }, node)

/-- `ComputeGraph::GetNode`. -/
def GetNode (g : ComputeGraph) (id : Nat) : Option ComputeNode :=
  AL.find? id g.nodes

/-- `ComputeGraph::GetEdge`. -/
def GetEdge (g : ComputeGraph) (id : Nat) : Option ComputeEdge :=
  AL.find? id g.edges

/-- `ComputeGraph::AddEdge`: store the edge, update the `inEdges`/`outEdges`
adjacency (`UpdateAdjacencyLists`), then append to the endpoint nodes'
`outputNodes`/`inputNodes` vectors. -/
def AddEdge (g : ComputeGraph) (src tgt : Nat) (kind : ComputeEdgeKind)
    (varName : String := "") : ComputeGraph × ComputeEdge :=
  let edge : ComputeEdge :=
    { id := g.nextEdgeId, kind := kind, sourceId := src, targetId := tgt,
      label := varName }
  let g1 := { g with edges := AL.set edge.id edge g.edges,
                     nextEdgeId := g.nextEdgeId + 1 }
  let g2 := { g1 with
    outEdges := AL.upsert src (fun l => l ++ [edge.id]) [] g1.outEdges,
    inEdges := AL.upsert tgt (fun l => l ++ [edge.id]) [] g1.inEdges }
  let g3 := { g2 with
    nodes := AL.modify src
      (fun n => { n with outputNodes := n.outputNodes ++ [tgt] }) g2.nodes }
  let g4 := { g3 with
    nodes := AL.modify tgt
      (fun n => { n with inputNodes := n.inputNodes ++ [src] }) g3.nodes }
  (g4, edge)

/-- `ComputeGraph::RemoveEdge`: drop the edge ID from the two adjacency
lists and erase the edge from the edge map.  The endpoint nodes'
`inputNodes`/`outputNodes` vectors are not touched. -/
def RemoveEdge (g : ComputeGraph) (id : Nat) : ComputeGraph :=
  match AL.find? id g.edges with
  | none => g
  | some edge =>
    { g with
      outEdges := AL.upsert edge.sourceId
        (fun l => l.filter (fun x => x ≠ id)) [] g.outEdges,
      inEdges := AL.upsert edge.targetId
        (fun l => l.filter (fun x => x ≠ id)) [] g.inEdges,
      edges := AL.erase id g.edges }

/-- `ComputeGraph::GetOutgoingEdges` (reads the `outEdges` adjacency). -/
def GetOutgoingEdges (g : ComputeGraph) (nodeId : Nat) : List ComputeEdge :=
  (AL.getD g.outEdges nodeId []).filterMap (fun eid => GetEdge g eid)

/-- `ComputeGraph::GetIncomingEdges` (reads the `inEdges` adjacency). -/
def GetIncomingEdges (g : ComputeGraph) (nodeId : Nat) : List ComputeEdge :=
  (AL.getD g.inEdges nodeId []).filterMap (fun eid => GetEdge g eid)

/-- `ComputeGraph::GetRootNodes` (reads the nodes' `inputNodes` vectors). -/
def GetRootNodes (g : ComputeGraph) : List ComputeNode :=
  (g.nodes.filter (fun p => p.2.inputNodes.isEmpty)).map Prod.snd

/-- `ComputeGraph::GetLeafNodes` (reads the nodes' `outputNodes` vectors). -/
def GetLeafNodes (g : ComputeGraph) : List ComputeNode :=
  (g.nodes.filter (fun p => p.2.outputNodes.isEmpty)).map Prod.snd

/-- `ComputeGraph::Clear`: empties the containers and resets both ID
counters to 0 (note: `nextNodeId` is reset to 0, not to its initial 1). -/
def Clear (g : ComputeGraph) : ComputeGraph :=
  { g with nodes := [], edges := [], inEdges := [], outEdges := [],
           nextNodeId := 0, nextEdgeId := 0 }

/-- Graph-level `SetProperty`. -/
def SetProperty (g : ComputeGraph) (k v : String) : ComputeGraph :=
  { g with properties := g.properties.set k v }

/-- Graph-level `GetProperty` (empty string when absent). -/
def GetProperty (g : ComputeGraph) (k : String) : String :=
  g.properties.get k

/-- `node->SetProperty` through the graph's node map (the C++ code mutates
the node through its `shared_ptr`). -/
def NodeSetProperty (g : ComputeGraph) (id : Nat) (k v : String) :
    ComputeGraph :=
  let upd := fun (n : ComputeNode) =>
    { n with properties := n.properties.set k v }
  { g with nodes := AL.modify id upd g.nodes }

/-! #### `ComputeGraph::TopologicalSort` (Kahn's algorithm)

The C++ loop `while (!queue.empty())` pops node IDs, appends the node to
the result and decrements `--inDegree[outId]` for each entry of the node's
`outputNodes`, pushing `outId` when the decremented counter is exactly 0.
`inDegree` is an `std::map<NodeId, int>` whose `operator[]` defaults to 0;
it is embedded as a total function `Nat → Int`.  The loop performs at most
one pop per enqueued ID and at most `nodes.length` IDs are ever enqueued,
so running the loop on `nodes.length + 1` fuel is exact. -/

/-- One pass over a popped node's `outputNodes`: decrement each target's
in-degree counter and enqueue targets whose counter reaches exactly 0. -/
def kahnPush (deg : Nat → Int) (queue : List Nat) (outs : List Nat) :
    (Nat → Int) × List Nat :=
  outs.foldl
    (fun s out =>
      let d := s.1 out - 1
      (Function.update s.1 out d, if d = 0 then s.2 ++ [out] else s.2))
    (deg, queue)

/-- The `while (!queue.empty())` loop of `TopologicalSort`. -/
def kahnLoop (g : ComputeGraph) :
    Nat → (Nat → Int) → List Nat → List ComputeNode → List ComputeNode
| 0, _, _, res => res
| _ + 1, _, [], res => res
| fuel + 1, deg, q :: qs, res =>
  match GetNode g q with
  | none => kahnLoop g fuel deg qs res
  | some node =>
    let s := kahnPush deg qs node.outputNodes
    kahnLoop g fuel s.1 s.2 (res ++ [node])

/-- `ComputeGraph::TopologicalSort`. -/
def TopologicalSort (g : ComputeGraph) : List ComputeNode :=
  let deg0 : Nat → Int := fun v =>
    match AL.find? v g.nodes with
    | some n => (n.inputNodes.length : Int)
    | none => 0
  let q0 := (g.nodes.map Prod.fst).filter (fun k => decide (deg0 k = 0))
  kahnLoop g (g.nodes.length + 1) deg0 q0 []

/-- `ComputeGraph::ComputeCanonicalSignature`: topological `(kind[:op]);`
items, a `|` separator, then `src->tgt:kind;` for every edge. -/
def ComputeCanonicalSignature (g : ComputeGraph) : String :=
  let nodePart := (TopologicalSort g).foldl
    (fun s n =>
      s ++ toString n.kind.toNat ++
      (if n.opCode ≠ OpCode.Unknown then ":" ++ toString n.opCode.toNat
       else "") ++ ";") ""
  let edgePart := g.edges.foldl
    (fun s p =>
      s ++ toString p.2.sourceId ++ "->" ++ toString p.2.targetId ++ ":" ++
      toString p.2.kind.toNat ++ ";") ""
  nodePart ++ "|" ++ edgePart

end ComputeGraph

/-! ### Association-list lemmas -/

namespace AL

variable {α : Type}

theorem find?_some_mem {k : Nat} {v : α} :
    ∀ {l : List (Nat × α)}, find? k l = some v → (k, v) ∈ l := by
  intro l
  induction l with
  | nil => intro h; simp [find?] at h
  | cons p rest ih =>
    intro h
    obtain ⟨k', v'⟩ := p
    by_cases hk : k' = k
    · subst hk
      simp [find?] at h
      subst h
      exact List.mem_cons_self _ _
    · simp [find?, hk] at h
      exact List.mem_cons_of_mem _ (ih h)

theorem erase_perm_of_find? {k : Nat} {v : α} :
    ∀ {l : List (Nat × α)}, find? k l = some v →
    l.Perm ((k, v) :: erase k l) := by
  intro l
  induction l with
  | nil => intro h; simp [find?] at h
  | cons p rest ih =>
    intro h
    obtain ⟨k', v'⟩ := p
    by_cases hk : k' = k
    · subst hk
      simp [find?] at h
      subst h
      simp [erase]
    · simp [find?, hk] at h
      have hrest := ih h
      simp only [erase, if_neg hk]
      exact List.Perm.trans (List.Perm.cons _ hrest) (List.Perm.swap _ _ _)

theorem find?_eq_none_of_not_mem_keys {k : Nat} :
    ∀ {l : List (Nat × α)}, k ∉ l.map Prod.fst → find? k l = none := by
  intro l
  induction l with
  | nil => intro _; rfl
  | cons p rest ih =>
    intro h
    obtain ⟨k', v'⟩ := p
    simp only [List.map_cons, List.mem_cons] at h
    push_neg at h
    have hk : k' ≠ k := fun he => h.1 he.symm
    simp only [find?, if_neg hk]
    exact ih h.2

theorem find?_erase_self_of_nodup {k : Nat} :
    ∀ {l : List (Nat × α)}, (l.map Prod.fst).Nodup →
    find? k (erase k l) = none := by
  intro l
  induction l with
  | nil => intro _; rfl
  | cons p rest ih =>
    intro h
    obtain ⟨k', v'⟩ := p
    simp only [List.map_cons, List.nodup_cons] at h
    by_cases hk : k' = k
    · subst hk
      simp only [erase, if_pos rfl]
      exact find?_eq_none_of_not_mem_keys h.1
    · simp only [erase, if_neg hk, find?, if_neg hk]
      exact ih h.2

theorem find?_set_self {k : Nat} {v : α} :
    ∀ (l : List (Nat × α)), find? k (set k v l) = some v := by
  intro l
  induction l with
  | nil => simp [set, find?]
  | cons p rest ih =>
    obtain ⟨k', v'⟩ := p
    by_cases hlt : k < k'
    · simp [set, hlt, find?]
    · by_cases heq : k = k'
      · simp [set, hlt, heq, find?]
      · simp only [set, if_neg hlt, if_neg heq]
        have hne : k' ≠ k := fun h => heq h.symm
        simp [find?, hne, ih]

theorem find?_modify_self {k : Nat} {f : α → α} :
    ∀ (l : List (Nat × α)),
    find? k (modify k f l) = (find? k l).map f := by
  intro l
  induction l with
  | nil => rfl
  | cons p rest ih =>
    obtain ⟨k', v'⟩ := p
    by_cases hk : k' = k
    · simp [modify, hk, find?]
    · simp [modify, hk, find?, ih]

theorem find?_upsert_self {k : Nat} {f : α → α} {d : α} :
    ∀ (l : List (Nat × α)),
    find? k (upsert k f d l) = some (f (getD l k d)) := by
  intro l
  unfold upsert getD
  cases hf : find? k l with
  | none => simp [find?_set_self]
  | some v => simp [find?_modify_self, hf]

theorem getD_upsert_self {k : Nat} {f : α → α} {d : α} (l : List (Nat × α)) :
    getD (upsert k f d l) k d = f (getD l k d) := by
  simp only [getD, @find?_upsert_self α k f d l]

theorem modify_map_fst {k : Nat} {f : α → α} :
    ∀ (l : List (Nat × α)), (modify k f l).map Prod.fst = l.map Prod.fst := by
  intro l
  induction l with
  | nil => rfl
  | cons p rest ih =>
    obtain ⟨k', v'⟩ := p
    by_cases hk : k' = k <;> simp [modify, hk, ih]

theorem not_mem_keys_of_find?_eq_none {k : Nat} :
    ∀ {l : List (Nat × α)}, find? k l = none → k ∉ l.map Prod.fst := by
  intro l
  induction l with
  | nil => intro _; simp
  | cons p rest ih =>
    intro h
    obtain ⟨k', v'⟩ := p
    by_cases hk : k' = k
    · simp [find?, hk] at h
    · simp only [find?, if_neg hk] at h
      simp only [List.map_cons, List.mem_cons]
      push_neg
      exact ⟨fun he => hk he.symm, ih h⟩

theorem find?_eq_some_of_mem_nodup {k : Nat} {v : α} :
    ∀ {l : List (Nat × α)}, (l.map Prod.fst).Nodup → (k, v) ∈ l →
    find? k l = some v := by
  intro l
  induction l with
  | nil => intro _ h; simp at h
  | cons p rest ih =>
    intro hnd hm
    obtain ⟨k', v'⟩ := p
    simp only [List.map_cons, List.nodup_cons] at hnd
    rcases List.mem_cons.mp hm with h | h
    · obtain ⟨hk, hv⟩ := Prod.mk.injEq .. ▸ h
      injection h with h1 h2
      subst h1; subst h2
      simp [find?]
    · have hk : k' ≠ k := by
        intro he
        subst he
        exact hnd.1 (List.mem_map.mpr ⟨(k', v), h, rfl⟩)
      simp only [find?, if_neg hk]
      exact ih hnd.2 h

theorem set_perm_of_not_mem {k : Nat} {v : α} :
    ∀ {l : List (Nat × α)}, k ∉ l.map Prod.fst →
    (set k v l).Perm ((k, v) :: l) := by
  intro l
  induction l with
  | nil => intro _; simp [set]
  | cons p rest ih =>
    intro h
    obtain ⟨k', v'⟩ := p
    simp only [List.map_cons, List.mem_cons] at h
    push_neg at h
    have hne : ¬(k = k') := fun he => h.1 he
    by_cases hlt : k < k'
    · simp [set, hlt]
    · simp only [set, if_neg hlt, if_neg hne]
      exact List.Perm.trans (List.Perm.cons _ (ih h.2))
        (List.Perm.swap _ _ _)

theorem find?_set_ne {k k' : Nat} {v : α} (hne : k' ≠ k) :
    ∀ (l : List (Nat × α)), find? k' (set k v l) = find? k' l := by
  have hkk : ¬(k = k') := fun h => hne h.symm
  intro l
  induction l with
  | nil => simp [set, find?, hkk]
  | cons p rest ih =>
    obtain ⟨k'', v''⟩ := p
    by_cases hlt : k < k''
    · simp [set, hlt, find?, hkk]
    · by_cases heq : k = k''
      · subst heq
        simp [set, hlt, find?, hkk]
      · simp only [set, if_neg hlt, if_neg heq, find?]
        by_cases h2 : k'' = k' <;> simp [h2, ih]

theorem find?_modify_ne {k k' : Nat} {f : α → α} (hne : k' ≠ k) :
    ∀ (l : List (Nat × α)), find? k' (modify k f l) = find? k' l := by
  have hkk : ¬(k = k') := fun h => hne h.symm
  intro l
  induction l with
  | nil => rfl
  | cons p rest ih =>
    obtain ⟨k'', v''⟩ := p
    by_cases hk : k'' = k
    · subst hk
      simp [modify, find?, hkk]
    · simp only [modify, if_neg hk, find?]
      by_cases h2 : k'' = k' <;> simp [h2, ih]

theorem find?_upsert_ne {k k' : Nat} {f : α → α} {d : α} (hne : k' ≠ k) :
    ∀ (l : List (Nat × α)), find? k' (upsert k f d l) = find? k' l := by
  intro l
  unfold upsert
  cases hf : find? k l with
  | none => exact find?_set_ne hne l
  | some v => exact find?_modify_ne hne l

theorem getD_upsert_ne {k k' : Nat} {f : α → α} {d : α} (hne : k' ≠ k)
    (l : List (Nat × α)) : getD (upsert k f d l) k' d = getD l k' d := by
  simp only [getD, find?_upsert_ne hne]

theorem erase_eq_filter_of_nodup {k : Nat} :
    ∀ {l : List (Nat × α)}, (l.map Prod.fst).Nodup →
    erase k l = l.filter (fun p => decide (p.1 ≠ k)) := by
  intro l
  induction l with
  | nil => intro _; rfl
  | cons p rest ih =>
    intro hnd
    obtain ⟨k', v'⟩ := p
    simp only [List.map_cons, List.nodup_cons] at hnd
    by_cases hk : k' = k
    · subst hk
      simp only [erase, eq_self_iff_true, if_true, List.filter_cons, ne_eq,
        not_true_eq_false, decide_False, Bool.false_eq_true, if_false]
      symm
      apply List.filter_eq_self.mpr
      intro p hp
      simp only [ne_eq, decide_eq_true_eq]
      intro he
      exact hnd.1 (List.mem_map.mpr ⟨p, hp, he⟩)
    · simp only [erase, if_neg hk, List.filter_cons]
      have hdec : (decide (k' ≠ k)) = true := by simp [hk]
      simp only [hdec, if_true]
      rw [ih hnd.2]

theorem mem_modify {k : Nat} {f : α → α} {q : Nat × α} :
    ∀ {l : List (Nat × α)}, q ∈ modify k f l →
    q ∈ l ∨ (∃ v', (k, v') ∈ l ∧ q = (k, f v')) := by
  intro l
  induction l with
  | nil => intro h; simp [modify] at h
  | cons p rest ih =>
    intro h
    obtain ⟨k', v'⟩ := p
    by_cases hk : k' = k
    · subst hk
      simp only [modify, if_pos rfl] at h
      rcases List.mem_cons.mp h with h1 | h1
      · exact Or.inr ⟨v', List.mem_cons_self _ _, h1⟩
      · exact Or.inl (List.mem_cons_of_mem _ h1)
    · simp only [modify, if_neg hk] at h
      rcases List.mem_cons.mp h with h1 | h1
      · exact Or.inl (by rw [h1]; exact List.mem_cons_self _ _)
      · rcases ih h1 with h2 | ⟨v'', hv, hq⟩
        · exact Or.inl (List.mem_cons_of_mem _ h2)
        · exact Or.inr ⟨v'', List.mem_cons_of_mem _ hv, hq⟩

theorem mem_upsert {k : Nat} {f : α → α} {d : α} {q : Nat × α}
    {l : List (Nat × α)} (h : q ∈ upsert k f d l) :
    q ∈ l ∨ q.1 = k := by
  unfold upsert at h
  cases hf : find? k l with
  | none =>
    rw [hf] at h
    have hnm := not_mem_keys_of_find?_eq_none hf
    have := (set_perm_of_not_mem hnm).mem_iff.mp h
    rcases List.mem_cons.mp this with h2 | h2
    · exact Or.inr (by rw [h2])
    · exact Or.inl h2
  | some v =>
    rw [hf] at h
    rcases mem_modify h with h2 | ⟨v', _, hq⟩
    · exact Or.inl h2
    · exact Or.inr (by rw [hq])

end AL

/-! ### `ComputeGraphSet` and `Deduplicate` (`ComputeGraph.cpp`) -/

/-- `ComputeGraphSet`: the managed list of graphs. -/
structure ComputeGraphSet where
  graphs : List ComputeGraph := []
deriving DecidableEq

/-- The anchor-position dedup key
`GetProperty("anchor_func") + ":" + GetProperty("anchor_line")`. -/
def anchorKeyOf (g : ComputeGraph) : String :=
  g.GetProperty "anchor_func" ++ ":" ++ g.GetProperty "anchor_line"

/-- The `for (const auto& g : graphs)` loop of `ComputeGraphSet::Deduplicate`
with its two first-wins seen-sets (anchor keys, then canonical
signatures). -/
def dedupLoop : List ComputeGraph → List String → List String →
    List ComputeGraph
| [], _, _ => []
| g :: rest, seenAnchors, seenSignatures =>
  if anchorKeyOf g ∈ seenAnchors then dedupLoop rest seenAnchors seenSignatures
  else if g.ComputeCanonicalSignature ∈ seenSignatures then
    dedupLoop rest seenAnchors seenSignatures
  else
    g :: dedupLoop rest (anchorKeyOf g :: seenAnchors)
          (g.ComputeCanonicalSignature :: seenSignatures)

/-- `ComputeGraphSet::Deduplicate`. -/
def ComputeGraphSet.Deduplicate (s : ComputeGraphSet) : ComputeGraphSet :=
  { graphs := dedupLoop s.graphs [] [] }

theorem dedupLoop_idem :
    ∀ (gs : List ComputeGraph) (A S A₀ S₀ : List String),
    A₀ ⊆ A → S₀ ⊆ S →
    dedupLoop (dedupLoop gs A S) A₀ S₀ = dedupLoop gs A S := by
  intro gs
  induction gs with
  | nil => intro A S A₀ S₀ _ _; rfl
  | cons g rest ih =>
    intro A S A₀ S₀ hA hS
    by_cases hk : anchorKeyOf g ∈ A
    · rw [dedupLoop, if_pos hk]
      exact ih A S A₀ S₀ hA hS
    · by_cases hs : g.ComputeCanonicalSignature ∈ S
      · rw [dedupLoop, if_neg hk, if_pos hs]
        exact ih A S A₀ S₀ hA hS
      · rw [dedupLoop, if_neg hk, if_neg hs]
        have hk₀ : anchorKeyOf g ∉ A₀ := fun h => hk (hA h)
        have hs₀ : g.ComputeCanonicalSignature ∉ S₀ := fun h => hs (hS h)
        rw [dedupLoop, if_neg hk₀, if_neg hs₀]
        congr 1
        exact ih (anchorKeyOf g :: A) (g.ComputeCanonicalSignature :: S)
          (anchorKeyOf g :: A₀) (g.ComputeCanonicalSignature :: S₀)
          (List.cons_subset_cons _ hA) (List.cons_subset_cons _ hS)

/-- C7: `Deduplicate` is idempotent on every `ComputeGraphSet`: a second run
returns the same set of graphs, because the survivors of the first run
already carry pairwise distinct anchor keys and canonical signatures. -/
theorem deduplicate_idempotent (s : ComputeGraphSet) :
    s.Deduplicate.Deduplicate = s.Deduplicate := by
  unfold ComputeGraphSet.Deduplicate
  simp only [ComputeGraphSet.mk.injEq]
  exact dedupLoop_idem s.graphs [] [] [] [] (by simp) (by simp)

/-! ### Claim C9 — `RemoveEdge` leaves `inputNodes`/`outputNodes` stale
(`ComputeGraph.cpp`) -/

theorem kahnLoop_congr {g g' : ComputeGraph} (hn : g'.nodes = g.nodes) :
    ∀ (fuel : Nat) (deg : Nat → Int) (q : List Nat)
      (res : List ComputeNode),
    ComputeGraph.kahnLoop g' fuel deg q res =
      ComputeGraph.kahnLoop g fuel deg q res := by
  intro fuel
  induction fuel with
  | zero => intro deg q res; rfl
  | succ n ih =>
    intro deg q res
    cases q with
    | nil => rfl
    | cons x xs =>
      have hgn : ComputeGraph.GetNode g' x = ComputeGraph.GetNode g x := by
        unfold ComputeGraph.GetNode
        rw [hn]
      rw [ComputeGraph.kahnLoop, ComputeGraph.kahnLoop, hgn]
      cases hx : ComputeGraph.GetNode g x with
      | none => exact ih deg xs res
      | some node => exact ih _ _ _

theorem topologicalSort_congr {g g' : ComputeGraph}
    (hn : g'.nodes = g.nodes) :
    g'.TopologicalSort = g.TopologicalSort := by
  unfold ComputeGraph.TopologicalSort
  rw [hn]
  exact kahnLoop_congr hn _ _ _ _

/-- C9: `RemoveEdge` erases the edge from the edge map and strips its ID
from the `outEdges`/`inEdges` adjacency of both endpoints, but leaves every
node — in particular the endpoints' `inputNodes`/`outputNodes` vectors
appended by `AddEdge` — untouched.  Consequently the target node's
`inputNodes` now counts the removed edge's source once more than the edge
map records, and `GetRootNodes`, `GetLeafNodes` and `TopologicalSort`
(which read only the stale vectors) return the same result as before the
removal. -/
theorem removeEdge_leaves_node_vectors_stale
    (g : ComputeGraph) (eid : Nat) (e : ComputeEdge) (n : ComputeNode)
    (hfind : g.GetEdge eid = some e)
    (hkeys : (g.edges.map Prod.fst).Nodup)
    (hnode : g.GetNode e.targetId = some n)
    (hagree : n.inputNodes.count e.sourceId =
      (g.edges.filter (fun p =>
        decide (p.2.sourceId = e.sourceId ∧ p.2.targetId = e.targetId))).length) :
    ((g.RemoveEdge eid).nodes = g.nodes) ∧
    ((g.RemoveEdge eid).GetEdge eid = none) ∧
    (eid ∉ AL.getD (g.RemoveEdge eid).outEdges e.sourceId []) ∧
    (eid ∉ AL.getD (g.RemoveEdge eid).inEdges e.targetId []) ∧
    ((g.RemoveEdge eid).GetNode e.targetId = some n) ∧
    (n.inputNodes.count e.sourceId =
      ((g.RemoveEdge eid).edges.filter (fun p =>
        decide (p.2.sourceId = e.sourceId ∧ p.2.targetId = e.targetId))).length
        + 1) ∧
    ((g.RemoveEdge eid).GetRootNodes = g.GetRootNodes) ∧
    ((g.RemoveEdge eid).GetLeafNodes = g.GetLeafNodes) ∧
    ((g.RemoveEdge eid).TopologicalSort = g.TopologicalSort) := by
  have hge : AL.find? eid g.edges = some e := hfind
  have hnodes : (g.RemoveEdge eid).nodes = g.nodes := by
    unfold ComputeGraph.RemoveEdge
    rw [hge]
  have hedges : (g.RemoveEdge eid).edges = AL.erase eid g.edges := by
    unfold ComputeGraph.RemoveEdge
    rw [hge]
  have hout : (g.RemoveEdge eid).outEdges =
      AL.upsert e.sourceId (fun l => l.filter (fun x => x ≠ eid)) []
        g.outEdges := by
    unfold ComputeGraph.RemoveEdge
    rw [hge]
  have hin : (g.RemoveEdge eid).inEdges =
      AL.upsert e.targetId (fun l => l.filter (fun x => x ≠ eid)) []
        g.inEdges := by
    unfold ComputeGraph.RemoveEdge
    rw [hge]
  refine ⟨hnodes, ?_, ?_, ?_, ?_, ?_, ?_, ?_, ?_⟩
  · show AL.find? eid (g.RemoveEdge eid).edges = none
    rw [hedges]
    exact AL.find?_erase_self_of_nodup hkeys
  · rw [hout, AL.getD_upsert_self]
    simp
  · rw [hin, AL.getD_upsert_self]
    simp
  · show AL.find? e.targetId (g.RemoveEdge eid).nodes = some n
    rw [hnodes]
    exact hnode
  · rw [hedges]
    have hperm := AL.erase_perm_of_find? hge
    have hpf := hperm.filter (fun p : Nat × ComputeEdge =>
      decide (p.2.sourceId = e.sourceId ∧ p.2.targetId = e.targetId))
    have hlen := hpf.length_eq
    rw [hagree, hlen]
    simp
  · unfold ComputeGraph.GetRootNodes
    rw [hnodes]
  · unfold ComputeGraph.GetLeafNodes
    rw [hnodes]
  · exact topologicalSort_congr hnodes

/-- A two-node, one-edge graph built through `CreateNode`/`AddEdge`,
exercising the claim about `RemoveEdge`. -/
def c9Graph : ComputeGraph :=
  (((((({} : ComputeGraph).CreateNode .Variable).1).CreateNode
    .BinaryOp).1).AddEdge 1 2 .DataFlow "x").1

def c9Edge : ComputeEdge :=
  { id := 0, kind := .DataFlow, sourceId := 1, targetId := 2, label := "x" }

def c9Node : ComputeNode :=
  { kind := .BinaryOp, id := 2, inputNodes := [1] }

theorem removeEdge_leaves_node_vectors_stale_witness :
    ((c9Graph.RemoveEdge 0).nodes = c9Graph.nodes) ∧
    ((c9Graph.RemoveEdge 0).GetEdge 0 = none) ∧
    (c9Node.inputNodes.count c9Edge.sourceId =
      ((c9Graph.RemoveEdge 0).edges.filter (fun p =>
        decide (p.2.sourceId = c9Edge.sourceId ∧
          p.2.targetId = c9Edge.targetId))).length + 1) := by
  have h := removeEdge_leaves_node_vectors_stale c9Graph 0 c9Edge c9Node
    (by decide) (by decide) (by decide) (by decide)
  exact ⟨h.1, h.2.1, h.2.2.2.2.2.1⟩

/-! ### Claim C5 — node IDs after `Clear` (`ComputeGraph.cpp`)

`ComputeGraph.h` declares `nextNodeId = 1` with the comment that IDs start
at 1 and 0 is the reserved invalid ID, but `ComputeGraph::Clear` resets
`nextNodeId` to 0, so the first `CreateNode` after a `Clear` hands out the
reserved invalid ID 0. -/

/-- C5: the code contradicts its own documented invariant: for every graph
`g` and node kind `k`, the first node created after `g.Clear()` receives
node ID 0 — the reserved invalid ID — even though a freshly constructed
graph starts handing out IDs at 1. -/
theorem clear_then_createNode_yields_invalid_id_zero
    (g : ComputeGraph) (k : ComputeNodeKind) :
    ((g.Clear.CreateNode k).2.id = 0) ∧
    (({} : ComputeGraph).CreateNode k).2.id = 1 := by
  constructor <;> rfl

/-! ### Claim C2 — `TopologicalSort` on graphs with cycles
(`ComputeGraph.cpp`)

Kahn's algorithm only ever emits nodes whose in-degree counter reaches
zero; the members of a dependency cycle — such as the two endpoints of a
`LoopCarried` back-edge paired with a forward `DataFlow` edge — are never
enqueued and are silently omitted from the result. -/

/-- Two nodes joined by a forward `DataFlow` edge and a `LoopCarried`
back-edge, as the builder produces for a loop-carried accumulator. -/
def c2Graph : ComputeGraph :=
  (((((({} : ComputeGraph).CreateNode .Variable).1).CreateNode
    .BinaryOp).1).AddEdge 1 2 .DataFlow "x").1.AddEdge 2 1 .LoopCarried
    "x" |>.1

/-- C2 counterexample: on the two-node cycle `1 → 2 → 1` the sort returns
the empty list, which is not a permutation of the graph's two nodes. -/
theorem topologicalSort_cycle_not_permutation :
    c2Graph.nodes.length = 2 ∧
    ComputeGraph.TopologicalSort c2Graph = [] ∧
    ¬ (ComputeGraph.TopologicalSort c2Graph).Perm
        (c2Graph.nodes.map Prod.snd) := by
  refine ⟨rfl, rfl, fun h => ?_⟩
  exact absurd h.length_eq (by decide)

/-! #### Kahn-step lemmas for the amended C2 claim -/

theorem kahnPush_nil (deg : Nat → Int) (q : List Nat) :
    ComputeGraph.kahnPush deg q [] = (deg, q) := rfl

theorem kahnPush_cons (deg : Nat → Int) (q : List Nat) (o : Nat)
    (rest : List Nat) :
    ComputeGraph.kahnPush deg q (o :: rest) =
      ComputeGraph.kahnPush (Function.update deg o (deg o - 1))
        (if deg o - 1 = 0 then q ++ [o] else q) rest := rfl

/-- After one `kahnPush` pass each counter has been decremented once per
occurrence of its node in the popped node's `outputNodes`. -/
theorem kahnPush_deg :
    ∀ (outs : List Nat) (deg : Nat → Int) (q : List Nat) (v : Nat),
    (ComputeGraph.kahnPush deg q outs).1 v =
      deg v - (outs.count v : Int) := by
  intro outs
  induction outs with
  | nil =>
    intro deg q v
    rw [kahnPush_nil]
    simp
  | cons o rest ih =>
    intro deg q v
    rw [kahnPush_cons, ih]
    by_cases h : v = o
    · subst h
      rw [Function.update_same, List.count_cons_self]
      push_cast
      ring
    · rw [Function.update_noteq h, List.count_cons_of_ne h]

/-- The IDs a `kahnPush` pass appends to the queue are exactly the
occurring targets whose counter passes through zero: `1 ≤ deg v` before
the pass and `deg v ≤ count v outs`.  Each is appended at most once. -/
theorem kahnPush_queue :
    ∀ (outs : List Nat) (deg : Nat → Int) (q : List Nat),
    ∃ pushed : List Nat,
      (ComputeGraph.kahnPush deg q outs).2 = q ++ pushed ∧
      pushed.Nodup ∧
      (∀ v, v ∈ pushed ↔
        v ∈ outs ∧ 1 ≤ deg v ∧ deg v ≤ (outs.count v : Int)) := by
  intro outs
  induction outs with
  | nil =>
    intro deg q
    refine ⟨[], by rw [kahnPush_nil]; simp, List.nodup_nil, ?_⟩
    simp
  | cons o rest ih =>
    intro deg q
    by_cases h0 : deg o - 1 = 0
    · obtain ⟨p', hq', hnd', hmem'⟩ :=
        ih (Function.update deg o (deg o - 1)) (q ++ [o])
      have hnot : o ∉ p' := by
        intro hmem
        have h1 := ((hmem' o).1 hmem).2.1
        rw [Function.update_same] at h1
        omega
      refine ⟨o :: p', ?_, List.nodup_cons.2 ⟨hnot, hnd'⟩, ?_⟩
      · rw [kahnPush_cons, if_pos h0, hq']
        simp
      · intro v
        by_cases hvo : v = o
        · subst hvo
          constructor
          · intro _
            refine ⟨List.mem_cons_self _ _, by omega, ?_⟩
            rw [List.count_cons_self]
            have : (0:Int) ≤ (rest.count v : Int) := Int.ofNat_nonneg _
            push_cast
            omega
          · intro _
            exact List.mem_cons_self _ _
        · have hdv : Function.update deg o (deg o - 1) v = deg v :=
            Function.update_noteq hvo _ _
          constructor
          · intro hv
            rcases List.mem_cons.1 hv with h | h
            · exact absurd h hvo
            · obtain ⟨hm, h1, h2⟩ := (hmem' v).1 h
              rw [hdv] at h1 h2
              refine ⟨List.mem_cons_of_mem _ hm, h1, ?_⟩
              rw [List.count_cons_of_ne hvo]
              exact h2
          · rintro ⟨hm, h1, h2⟩
            rcases List.mem_cons.1 hm with h | h
            · exact absurd h hvo
            · refine List.mem_cons_of_mem _ ((hmem' v).2 ⟨h, ?_, ?_⟩)
              · rw [hdv]
                exact h1
              · rw [hdv]
                rw [List.count_cons_of_ne hvo] at h2
                exact h2
    · obtain ⟨p', hq', hnd', hmem'⟩ :=
        ih (Function.update deg o (deg o - 1)) q
      refine ⟨p', ?_, hnd', ?_⟩
      · rw [kahnPush_cons, if_neg h0, hq']
      · intro v
        by_cases hvo : v = o
        · subst hvo
          constructor
          · intro hv
            obtain ⟨hm, h1, h2⟩ := (hmem' v).1 hv
            rw [Function.update_same] at h1 h2
            refine ⟨List.mem_cons_self _ _, by omega, ?_⟩
            rw [List.count_cons_self]
            push_cast at h2 ⊢
            omega
          · rintro ⟨hm, h1, h2⟩
            rw [List.count_cons_self] at h2
            push_cast at h2
            have hcnt : 1 ≤ rest.count v := by
              by_contra hc
              have hz : rest.count v = 0 := by omega
              rw [hz] at h2
              omega
            refine (hmem' v).2 ⟨?_, ?_, ?_⟩
            · exact List.count_pos_iff_mem.1 (by omega)
            · rw [Function.update_same]
              omega
            · rw [Function.update_same]
              push_cast
              omega
        · have hdv : Function.update deg o (deg o - 1) v = deg v :=
            Function.update_noteq hvo _ _
          constructor
          · intro hv
            obtain ⟨hm, h1, h2⟩ := (hmem' v).1 hv
            rw [hdv] at h1 h2
            refine ⟨List.mem_cons_of_mem _ hm, h1, ?_⟩
            rw [List.count_cons_of_ne hvo]
            exact h2
          · rintro ⟨hm, h1, h2⟩
            rcases List.mem_cons.1 hm with h | h
            · exact absurd h hvo
            · refine (hmem' v).2 ⟨h, ?_, ?_⟩
              · rw [hdv]
                exact h1
              · rw [hdv]
                rw [List.count_cons_of_ne hvo] at h2
                exact h2

theorem countP_notMem_append_singleton (P : List Nat) (a : Nat)
    (ha : a ∉ P) :
    ∀ l : List Nat,
    l.countP (fun u => decide (u ∉ P)) =
      l.countP (fun u => decide (u ∉ P ++ [a])) + l.count a := by
  intro l
  induction l with
  | nil => rfl
  | cons u rest ih =>
    simp only [List.countP_cons, List.count_cons, ih]
    by_cases hu : u = a
    · rw [if_pos (show decide (u ∉ P) = true by simp [hu, ha]),
        if_neg (show ¬ decide (u ∉ P ++ [a]) = true by simp [hu]),
        if_pos (show (u == a) = true by simp [hu])]
      omega
    · rw [if_neg (show ¬ (u == a) = true by simp [hu])]
      by_cases h4 : u ∈ P
      · rw [if_neg (show ¬ decide (u ∉ P) = true by simp [h4]),
          if_neg (show ¬ decide (u ∉ P ++ [a]) = true by simp [h4])]
        omega
      · rw [if_pos (show decide (u ∉ P) = true by simp [h4]),
          if_pos (show decide (u ∉ P ++ [a]) = true by simp [h4, hu])]
        omega

theorem count_le_countP_notMem (P : List Nat) (a : Nat) (ha : a ∉ P) :
    ∀ l : List Nat, l.count a ≤ l.countP (fun u => decide (u ∉ P)) := by
  intro l
  induction l with
  | nil => simp
  | cons u rest ih =>
    simp only [List.countP_cons, List.count_cons]
    by_cases hu : u = a
    · rw [if_pos (show decide (u ∉ P) = true by simp [hu, ha]),
        if_pos (show (u == a) = true by simp [hu])]
      omega
    · rw [if_neg (show ¬ (u == a) = true by simp [hu])]
      by_cases h4 : u ∈ P
      · rw [if_neg (show ¬ decide (u ∉ P) = true by simp [h4])]
        omega
      · rw [if_pos (show decide (u ∉ P) = true by simp [h4])]
        omega

theorem countP_le_count_forces (P : List Nat) (a : Nat) (ha : a ∉ P) :
    ∀ l : List Nat,
    l.countP (fun u => decide (u ∉ P)) ≤ l.count a →
    ∀ u ∈ l, u ∉ P → u = a := by
  intro l
  induction l with
  | nil =>
    intro _ u hu
    exact absurd hu (List.not_mem_nil u)
  | cons w rest ih =>
    intro hle u hu hnp
    simp only [List.countP_cons, List.count_cons] at hle
    rcases List.mem_cons.1 hu with h | h
    · subst h
      by_contra hne
      rw [if_pos (show decide (u ∉ P) = true by simp [hnp]),
        if_neg (show ¬ (u == a) = true by simp [hne])] at hle
      have hcle := count_le_countP_notMem P a ha rest
      omega
    · refine ih ?_ u h hnp
      by_cases hw : w ∈ P
      · rw [if_neg (show ¬ decide (w ∉ P) = true by simp [hw]),
          if_neg (show ¬ (w == a) = true by
            simp only [beq_iff_eq]
            exact fun hh => ha (hh ▸ hw))] at hle
        omega
      · by_cases hwa : a = w
        · rw [if_pos (show decide (w ∉ P) = true by simp [hw]),
            if_pos (show (w == a) = true by simp [hwa.symm])] at hle
          omega
        · rw [if_pos (show decide (w ∉ P) = true by simp [hw]),
            if_neg (show ¬ (w == a) = true by simp; exact fun hh => hwa hh.symm)] at hle
          have hcle := count_le_countP_notMem P a ha rest
          omega

theorem count_filterMap_st {α : Type} (s t : α → Nat) (a v : Nat) :
    ∀ l : List α,
    (l.filterMap (fun q => if t q = v then some (s q) else none)).count a =
    (l.filterMap (fun q => if s q = a then some (t q) else none)).count v
    := by
  intro l
  induction l with
  | nil => rfl
  | cons p rest ih =>
    rw [List.filterMap_cons, List.filterMap_cons]
    by_cases h1 : t p = v
    · by_cases h2 : s p = a
      · rw [if_pos h1, if_pos h2]
        simp only [List.count_cons, ih]
        rw [if_pos (show (s p == a) = true by simp [h2]),
          if_pos (show (t p == v) = true by simp [h1])]
      · rw [if_pos h1, if_neg h2]
        simp only [List.count_cons, ih]
        rw [if_neg (show ¬ (s p == a) = true by simp [h2])]
        omega
    · by_cases h2 : s p = a
      · rw [if_neg h1, if_pos h2]
        simp only [List.count_cons, ih]
        rw [if_neg (show ¬ (t p == v) = true by simp [h1])]
        omega
      · rw [if_neg h1, if_neg h2]
        exact ih

/-- The invariant of Kahn's `while` loop in `TopologicalSort`, for a graph
whose redundant representations agree: node keys are unique, each node's
`id` equals its key, `inputNodes`/`outputNodes` list exactly the edge
sources/targets of the edge map, and edge targets are stored nodes.  Any
state whose emitted prefix and queue are duplicate-free, whose counters
equal the number of unprocessed in-edges, whose queue members have all
in-sources emitted, and whose emitted prefix is closed under in-sources
and topologically ordered, runs to a result with unique ids drawn from the
node map, closed under in-sources, irreflexive, and ordered. -/
theorem kahnLoop_sound (g : ComputeGraph)
    (hkeys : (g.nodes.map Prod.fst).Nodup)
    (hid : ∀ p ∈ g.nodes, p.2.id = p.1)
    (hci : ∀ p ∈ g.nodes, p.2.inputNodes = g.edges.filterMap
      (fun q => if q.2.targetId = p.1 then some q.2.sourceId else none))
    (hco : ∀ p ∈ g.nodes, p.2.outputNodes = g.edges.filterMap
      (fun q => if q.2.sourceId = p.1 then some q.2.targetId else none))
    (htgt : ∀ q ∈ g.edges, q.2.targetId ∈ g.nodes.map Prod.fst) :
    ∀ (fuel : Nat) (deg : Nat → Int) (q : List Nat)
      (res : List ComputeNode),
    ((res.map (fun m => m.id)) ++ q).Nodup →
    (∀ n ∈ res, AL.find? n.id g.nodes = some n) →
    (∀ v ∈ q, v ∈ g.nodes.map Prod.fst) →
    (∀ v n, AL.find? v g.nodes = some n → deg v =
      ((n.inputNodes.countP (fun u =>
        decide (u ∉ res.map (fun m => m.id)))) : Int)) →
    (∀ v ∈ q, ∀ n, AL.find? v g.nodes = some n →
      ∀ u ∈ n.inputNodes, u ∈ res.map (fun m => m.id)) →
    (∀ n ∈ res, ∀ u ∈ n.inputNodes, u ∈ res.map (fun m => m.id)) →
    (∀ n ∈ res, n.id ∉ n.inputNodes) →
    res.Pairwise (fun x y => y.id ∉ x.inputNodes) →
    ((ComputeGraph.kahnLoop g fuel deg q res).map (fun m => m.id)).Nodup ∧
    (∀ n ∈ ComputeGraph.kahnLoop g fuel deg q res,
      AL.find? n.id g.nodes = some n) ∧
    (∀ n ∈ ComputeGraph.kahnLoop g fuel deg q res, ∀ u ∈ n.inputNodes,
      u ∈ (ComputeGraph.kahnLoop g fuel deg q res).map (fun m => m.id)) ∧
    (∀ n ∈ ComputeGraph.kahnLoop g fuel deg q res,
      n.id ∉ n.inputNodes) ∧
    (ComputeGraph.kahnLoop g fuel deg q res).Pairwise
      (fun x y => y.id ∉ x.inputNodes) := by
  intro fuel
  induction fuel with
  | zero =>
    intro deg q res hnd hres hq hdeg hqz hclosed hself hpw
    simp only [ComputeGraph.kahnLoop]
    exact ⟨(List.nodup_append.1 hnd).1, hres, hclosed, hself, hpw⟩
  | succ fuel ih =>
    intro deg q res hnd hres hq hdeg hqz hclosed hself hpw
    cases q with
    | nil =>
      simp only [ComputeGraph.kahnLoop]
      exact ⟨(List.nodup_append.1 hnd).1, hres, hclosed, hself, hpw⟩
    | cons v qs =>
      cases hfind : ComputeGraph.GetNode g v with
      | none =>
        exact absurd (hq v (List.mem_cons_self v qs))
          (AL.not_mem_keys_of_find?_eq_none hfind)
      | some node =>
        have hfind' : AL.find? v g.nodes = some node := hfind
        have hstep : ComputeGraph.kahnLoop g (fuel+1) deg (v :: qs) res =
            ComputeGraph.kahnLoop g fuel
              (ComputeGraph.kahnPush deg qs node.outputNodes).1
              (ComputeGraph.kahnPush deg qs node.outputNodes).2
              (res ++ [node]) := by
          simp only [ComputeGraph.kahnLoop, hfind]
        rw [hstep]
        have hmemnode : (v, node) ∈ g.nodes := AL.find?_some_mem hfind'
        have hnodeid : node.id = v := hid _ hmemnode
        have houts : node.outputNodes = g.edges.filterMap
            (fun q => if q.2.sourceId = v then some q.2.targetId
             else none) := hco _ hmemnode
        obtain ⟨pushed, hs2, hpnd, hpmem⟩ :=
          kahnPush_queue node.outputNodes deg qs
        have hdegafter := kahnPush_deg node.outputNodes deg qs
        have hvids : v ∉ res.map (fun m => m.id) :=
          fun hv => (List.nodup_append.1 hnd).2.2 hv
            (List.mem_cons_self v qs)
        have hids' : (res ++ [node]).map (fun m => m.id) =
            res.map (fun m => m.id) ++ [v] := by
          rw [List.map_append]
          simp [hnodeid]
        have hcountvw : ∀ (w : Nat) (nw : ComputeNode),
            (w, nw) ∈ g.nodes →
            node.outputNodes.count w = nw.inputNodes.count v := by
          intro w nw hm
          rw [houts, hci _ hm]
          exact (count_filterMap_st (fun q => q.2.sourceId)
            (fun q => q.2.targetId) v w g.edges).symm
        have houtskeys : ∀ w ∈ node.outputNodes,
            w ∈ g.nodes.map Prod.fst := by
          intro w hw
          rw [houts] at hw
          obtain ⟨e, he, hfe⟩ := List.mem_filterMap.1 hw
          by_cases hc : e.2.sourceId = v
          · rw [if_pos hc] at hfe
            injection hfe with hfe
            exact hfe ▸ htgt e he
          · rw [if_neg hc] at hfe
            cases hfe
        have hfindofkey : ∀ w ∈ g.nodes.map Prod.fst,
            ∃ nw, AL.find? w g.nodes = some nw ∧ (w, nw) ∈ g.nodes := by
          intro w hw
          obtain ⟨p, hp, hp1⟩ := List.mem_map.1 hw
          have hpe : (w, p.2) ∈ g.nodes := by
            have : (w, p.2) = p := by
              rw [← hp1]
            rw [this]
            exact hp
          exact ⟨p.2, AL.find?_eq_some_of_mem_nodup hkeys hpe, hpe⟩
        have hdegdone : ∀ w, w ∈ res.map (fun m => m.id) ∨ w ∈ v :: qs →
            deg w = 0 := by
          intro w hw
          have hwkeys : w ∈ g.nodes.map Prod.fst := by
            rcases hw with h | h
            · obtain ⟨n, hn, hnid⟩ := List.mem_map.1 h
              rw [← hnid]
              exact List.mem_map.2
                ⟨(n.id, n), AL.find?_some_mem (hres n hn), rfl⟩
            · exact hq w h
          obtain ⟨nw, hfw, _⟩ := hfindofkey w hwkeys
          have hsub : ∀ u ∈ nw.inputNodes,
              u ∈ res.map (fun m => m.id) := by
            rcases hw with h | h
            · obtain ⟨n, hn, hnid⟩ := List.mem_map.1 h
              have hfn := hres n hn
              have hnid' : n.id = w := hnid
              rw [hnid'] at hfn
              rw [hfn] at hfw
              have hnnw : n = nw := Option.some.inj hfw
              intro u hu
              exact hclosed n hn u (hnnw ▸ hu)
            · exact hqz w h nw hfw
          rw [hdeg w nw hfw]
          have hz : nw.inputNodes.countP (fun u =>
              decide (u ∉ res.map (fun m => m.id))) = 0 := by
            apply List.countP_eq_zero.2
            intro u hu
            simp [hsub u hu]
          rw [hz]
          rfl
        have hpushedfresh : ∀ w ∈ pushed,
            w ∉ res.map (fun m => m.id) ++ v :: qs := by
          intro w hwp hwmem
          have h1 := ((hpmem w).1 hwp).2.1
          have hz : deg w = 0 := hdegdone w (List.mem_append.1 hwmem)
          omega
        have hpushedkeys : ∀ w ∈ pushed, w ∈ g.nodes.map Prod.fst :=
          fun w hwp => houtskeys w ((hpmem w).1 hwp).1
        apply ih
        · -- uniqueness of emitted prefix plus queue
          rw [hids', hs2]
          have hassoc : (res.map (fun m => m.id) ++ [v]) ++
              (qs ++ pushed) =
              (res.map (fun m => m.id) ++ v :: qs) ++ pushed := by
            simp [List.append_assoc]
          rw [hassoc]
          exact List.nodup_append.2
            ⟨hnd, hpnd, fun a ha hb => hpushedfresh a hb ha⟩
        · -- emitted nodes are stored nodes
          intro n hn
          rcases List.mem_append.1 hn with h | h
          · exact hres n h
          · rw [List.mem_singleton] at h
            subst h
            rw [hnodeid]
            exact hfind'
        · -- queue members are keys
          intro w hw
          rw [hs2] at hw
          rcases List.mem_append.1 hw with h | h
          · exact hq w (List.mem_cons_of_mem v h)
          · exact hpushedkeys w h
        · -- counter formula
          intro w nw hfw
          rw [hdegafter w, hdeg w nw hfw, hids',
            hcountvw w nw (AL.find?_some_mem hfw),
            countP_notMem_append_singleton (res.map (fun m => m.id)) v
              hvids nw.inputNodes]
          push_cast
          ring
        · -- queue members have all in-sources emitted
          intro w hw nw hfw u hu
          rw [hs2] at hw
          rw [hids']
          rcases List.mem_append.1 hw with h | h
          · exact List.mem_append_left _
              (hqz w (List.mem_cons_of_mem v h) nw hfw u hu)
          · have hp := (hpmem w).1 h
            have hle : nw.inputNodes.countP (fun x =>
                decide (x ∉ res.map (fun m => m.id))) ≤
                nw.inputNodes.count v := by
              have h22 := hp.2.2
              rw [hdeg w nw hfw,
                hcountvw w nw (AL.find?_some_mem hfw)] at h22
              exact_mod_cast h22
            by_cases hu2 : u ∈ res.map (fun m => m.id)
            · exact List.mem_append_left _ hu2
            · have huv := countP_le_count_forces
                (res.map (fun m => m.id)) v hvids nw.inputNodes hle
                u hu hu2
              rw [huv]
              simp
        · -- emitted prefix closed under in-sources
          intro n hn u hu
          rw [hids']
          rcases List.mem_append.1 hn with h | h
          · exact List.mem_append_left _ (hclosed n h u hu)
          · rw [List.mem_singleton] at h
            subst h
            exact List.mem_append_left _
              (hqz v (List.mem_cons_self v qs) n hfind' u hu)
        · -- no self-input
          intro n hn
          rcases List.mem_append.1 hn with h | h
          · exact hself n h
          · rw [List.mem_singleton] at h
            subst h
            rw [hnodeid]
            intro hcontra
            exact hvids (hqz v (List.mem_cons_self v qs) n hfind' v
              hcontra)
        · -- topological order of the emitted prefix
          refine List.pairwise_append.2
            ⟨hpw, List.pairwise_singleton _ _, ?_⟩
          intro x hx y hy
          rw [List.mem_singleton] at hy
          subst hy
          rw [hnodeid]
          intro hvx
          exact hvids (hclosed x hx v hvx)

/-- C2 (amended): for every compute graph whose stored adjacency agrees
with its edge map, `TopologicalSort` emits distinct nodes of the graph
and respects every edge whose target it emits: the target appears after
the source.  When every node is emitted — in particular on acyclic
graphs, where Kahn's algorithm drains the whole node map — the result is
a permutation of the nodes; on graphs with cycles (for example a
`LoopCarried` back-edge, see the counterexample) the cycle members are
omitted, so the unconditional permutation claim is false. -/
theorem topologicalSort_kahn_sound (g : ComputeGraph)
    (hkeys : (g.nodes.map Prod.fst).Nodup)
    (hid : ∀ p ∈ g.nodes, p.2.id = p.1)
    (hci : ∀ p ∈ g.nodes, p.2.inputNodes = g.edges.filterMap
      (fun q => if q.2.targetId = p.1 then some q.2.sourceId else none))
    (hco : ∀ p ∈ g.nodes, p.2.outputNodes = g.edges.filterMap
      (fun q => if q.2.sourceId = p.1 then some q.2.targetId else none))
    (htgt : ∀ q ∈ g.edges, q.2.targetId ∈ g.nodes.map Prod.fst) :
    ((ComputeGraph.TopologicalSort g).map (fun m => m.id)).Nodup ∧
    (∀ n ∈ ComputeGraph.TopologicalSort g, (n.id, n) ∈ g.nodes) ∧
    (∀ e ∈ g.edges, e.2.targetId ∈
        (ComputeGraph.TopologicalSort g).map (fun m => m.id) →
      ∃ l₁ n l₂, ComputeGraph.TopologicalSort g = l₁ ++ n :: l₂ ∧
        n.id = e.2.targetId ∧
        e.2.sourceId ∈ l₁.map (fun m => m.id)) ∧
    ((ComputeGraph.TopologicalSort g).length = g.nodes.length →
      (ComputeGraph.TopologicalSort g).Perm (g.nodes.map Prod.snd)) := by
  have hts : ComputeGraph.TopologicalSort g =
      ComputeGraph.kahnLoop g (g.nodes.length + 1)
        (fun v => match AL.find? v g.nodes with
          | some n => (n.inputNodes.length : Int)
          | none => 0)
        ((g.nodes.map Prod.fst).filter (fun k =>
          decide ((match AL.find? k g.nodes with
            | some n => (n.inputNodes.length : Int)
            | none => 0) = 0))) [] := rfl
  have hmain := kahnLoop_sound g hkeys hid hci hco htgt
    (g.nodes.length + 1)
    (fun v => match AL.find? v g.nodes with
      | some n => (n.inputNodes.length : Int)
      | none => 0)
    ((g.nodes.map Prod.fst).filter (fun k =>
      decide ((match AL.find? k g.nodes with
        | some n => (n.inputNodes.length : Int)
        | none => 0) = 0)))
    []
    (by simpa using List.Nodup.filter _ hkeys)
    (by simp)
    (fun v hv => List.mem_of_mem_filter hv)
    (by
      intro v n hfv
      simp only [hfv]
      have hl : n.inputNodes.countP (fun u =>
          decide (u ∉ ([] : List ComputeNode).map (fun m => m.id))) =
          n.inputNodes.length := by
        apply List.countP_eq_length.2
        intro u _
        simp
      rw [hl])
    (by
      intro v hv n hfv u hu
      have hdz := List.of_mem_filter hv
      simp only [hfv, decide_eq_true_eq] at hdz
      have hlen : n.inputNodes.length = 0 := by exact_mod_cast hdz
      rw [List.length_eq_zero] at hlen
      rw [hlen] at hu
      cases hu)
    (by simp)
    (by simp)
    List.Pairwise.nil
  rw [← hts] at hmain
  obtain ⟨cnodup, cfind, cclosed, cself, cpw⟩ := hmain
  refine ⟨cnodup, ?_, ?_, ?_⟩
  · intro n hn
    exact AL.find?_some_mem (cfind n hn)
  · intro e he htgtmem
    obtain ⟨n, hn, hnid⟩ := List.mem_map.1 htgtmem
    obtain ⟨l₁, l₂, hsplit⟩ := List.append_of_mem hn
    refine ⟨l₁, n, l₂, hsplit, hnid, ?_⟩
    have hmemn : (n.id, n) ∈ g.nodes := AL.find?_some_mem (cfind n hn)
    have hinp : n.inputNodes = g.edges.filterMap
        (fun q => if q.2.targetId = n.id then some q.2.sourceId
         else none) := hci _ hmemn
    have hsrcmem : e.2.sourceId ∈ n.inputNodes := by
      rw [hinp]
      refine List.mem_filterMap.2 ⟨e, he, ?_⟩
      rw [if_pos (by rw [hnid])]
    have hsrcids := cclosed n hn _ hsrcmem
    obtain ⟨m, hm, hmid⟩ := List.mem_map.1 hsrcids
    rw [hsplit] at hm
    rcases List.mem_append.1 hm with h | h
    · exact List.mem_map.2 ⟨m, h, hmid⟩
    · rcases List.mem_cons.1 h with h2 | h2
      · exfalso
        subst h2
        have hmid' : m.id = e.2.sourceId := hmid
        rw [← hmid'] at hsrcmem
        exact cself m hn hsrcmem
      · exfalso
        rw [hsplit] at cpw
        have hpair := List.pairwise_append.1 cpw
        have hrel := (List.pairwise_cons.1 hpair.2.1).1 m h2
        have hmid' : m.id = e.2.sourceId := hmid
        rw [hmid'] at hrel
        exact hrel hsrcmem
  · intro hlen
    have hsub : (ComputeGraph.TopologicalSort g).map
        (fun n => (n.id, n)) ⊆ g.nodes := by
      intro p hp
      obtain ⟨n, hn, hpn⟩ := List.mem_map.1 hp
      rw [← hpn]
      exact AL.find?_some_mem (cfind n hn)
    have hndp : (((ComputeGraph.TopologicalSort g).map
        (fun n => (n.id, n))).map Prod.fst).Nodup := by
      rw [List.map_map]
      simpa [Function.comp] using cnodup
    have hndp2 : ((ComputeGraph.TopologicalSort g).map
        (fun n => (n.id, n))).Nodup := List.Nodup.of_map _ hndp
    have hsubperm := hndp2.subperm hsub
    have hlen2 : g.nodes.length ≤ ((ComputeGraph.TopologicalSort g).map
        (fun n => (n.id, n))).length := by
      rw [List.length_map, hlen]
    have hperm := hsubperm.perm_of_length_le hlen2
    have hmapped := hperm.map Prod.snd
    rw [List.map_map] at hmapped
    have hfun : (Prod.snd ∘ fun n : ComputeNode => (n.id, n)) = id := by
      funext n
      rfl
    rw [hfun, List.map_id] at hmapped
    exact hmapped

/-- An acyclic two-node graph built through `CreateNode`/`AddEdge`, on
which the sort hypotheses hold by evaluation. -/
def c2AcyclicGraph : ComputeGraph :=
  (((((({} : ComputeGraph).CreateNode .Variable).1).CreateNode
    .BinaryOp).1).AddEdge 1 2 .DataFlow "x").1

theorem topologicalSort_kahn_sound_witness :
    ((ComputeGraph.TopologicalSort c2AcyclicGraph).map
      (fun m => m.id)).Nodup ∧
    (∀ n ∈ ComputeGraph.TopologicalSort c2AcyclicGraph,
      (n.id, n) ∈ c2AcyclicGraph.nodes) ∧
    (∀ e ∈ c2AcyclicGraph.edges, e.2.targetId ∈
        (ComputeGraph.TopologicalSort c2AcyclicGraph).map
          (fun m => m.id) →
      ∃ l₁ n l₂, ComputeGraph.TopologicalSort c2AcyclicGraph =
          l₁ ++ n :: l₂ ∧ n.id = e.2.targetId ∧
        e.2.sourceId ∈ l₁.map (fun m => m.id)) ∧
    ((ComputeGraph.TopologicalSort c2AcyclicGraph).length =
        c2AcyclicGraph.nodes.length →
      (ComputeGraph.TopologicalSort c2AcyclicGraph).Perm
        (c2AcyclicGraph.nodes.map Prod.snd)) :=
  topologicalSort_kahn_sound c2AcyclicGraph (by decide) (by decide)
    (by decide) (by decide) (by decide)

/-! ### Loop wiring (`ComputeGraphBuilder.cpp`) -/

/-- `ComputeGraphBuilder::ConnectNodes`: skip self-loops and invalid IDs,
skip when an identical `(target, kind, label)` outgoing edge already
exists, otherwise `AddEdge`. -/
def ConnectNodes (g : ComputeGraph) (src tgt : Nat) (kind : ComputeEdgeKind)
    (label : String) : ComputeGraph :=
  if src = tgt ∨ src = 0 ∨ tgt = 0 then g
  else if (g.GetOutgoingEdges src).any (fun e =>
      decide (e.targetId = tgt ∧ e.kind = kind ∧ e.label = label)) then g
  else (g.AddEdge src tgt kind label).1

/-- The fields of `ComputeGraphBuilder::LoopInfo` that
`ConnectLoopVarInitToLoop` reads. -/
structure LoopInfo where
  loopNodeId : Nat := 0
  loopVarName : String := ""
  bodyStartLine : Int := 0
  bodyEndLine : Int := 0
deriving DecidableEq

/-- Step 1 of `ConnectLoopVarInitToLoop`: scan the node map for the
external initializer — a `Variable` node named like the loop variable with
`0 < sourceLine < loopLine`, taking the largest such line; the Loop node
itself is skipped.  Returns `(initNodeId, initLine)` with 0 for "not
found". -/
def FindLoopVarInitNode (g : ComputeGraph) (li : LoopInfo)
    (loopLine : Int) : Nat × Int :=
  g.nodes.foldl
    (fun acc p =>
      if p.1 = li.loopNodeId then acc
      else if p.2.name = li.loopVarName ∧ p.2.kind = .Variable ∧
          p.2.sourceLine > 0 ∧ p.2.sourceLine < loopLine ∧
          p.2.sourceLine > acc.2
      then (p.1, p.2.sourceLine) else acc)
    (0, 0)

/-- Steps 2-5 of `ConnectLoopVarInitToLoop`, once the initializer node has
been found: create the `init → Loop` edge unless the initializer already
has an outgoing edge (of any kind) to the Loop node, remove every other
outgoing DataFlow edge of the initializer, and mark the initializer. -/
def ConnectLoopVarInitCore (g : ComputeGraph) (li : LoopInfo)
    (initNodeId : Nat) : ComputeGraph :=
  let hasInitEdge := (g.GetOutgoingEdges initNodeId).any
    (fun e => decide (e.targetId = li.loopNodeId))
  let g1 := if hasInitEdge then g
    else ConnectNodes g initNodeId li.loopNodeId .DataFlow
      ("init:" ++ li.loopVarName)
  let toRemove := ((g1.GetOutgoingEdges initNodeId).filter
    (fun e => decide (¬e.targetId = li.loopNodeId ∧
      e.kind = ComputeEdgeKind.DataFlow))).map (fun e => e.id)
  let g2 := toRemove.foldl ComputeGraph.RemoveEdge g1
  (g2.NodeSetProperty initNodeId "is_loop_var_init"
    "true").NodeSetProperty initNodeId "loop_node_id"
    (toString li.loopNodeId)

/-- `ComputeGraphBuilder::ConnectLoopVarInitToLoop`: locate the external
initializer of the loop variable and, if found, run the connect/cleanup
core on it. -/
def ConnectLoopVarInitToLoop (g : ComputeGraph) (li : LoopInfo) :
    ComputeGraph :=
  if li.loopNodeId = 0 ∨ li.loopVarName = "" then g
  else
    match g.GetNode li.loopNodeId with
    | none => g
    | some loopNode =>
      let initNodeId := (FindLoopVarInitNode g li loopNode.sourceLine).1
      if initNodeId = 0 then g
      else ConnectLoopVarInitCore g li initNodeId

/-- Well-formedness of the edge map and the `outEdges` adjacency, as
`AddEdge`-built graphs satisfy it: edge keys are unique, below the
counter, equal to the stored edge's `id` field, every edge is listed under
its source in `outEdges`, and every adjacency entry points back to an
edge of that source. -/
def OutWF (g : ComputeGraph) : Prop :=
  (g.edges.map Prod.fst).Nodup ∧
  (∀ p ∈ g.edges, p.2.id = p.1) ∧
  (∀ p ∈ g.edges, p.1 < g.nextEdgeId) ∧
  (∀ q ∈ g.outEdges, ∀ eid ∈ q.2, eid < g.nextEdgeId) ∧
  (∀ p ∈ g.edges, p.1 ∈ AL.getD g.outEdges p.2.sourceId []) ∧
  (∀ q ∈ g.outEdges, ∀ eid ∈ q.2, ∀ p ∈ g.edges, p.1 = eid →
    p.2.sourceId = q.1)

/-! #### Claim C3 counterexample

A graph in which the initializer `i@5` already has a Control edge to the
Loop node (such edges arise from the CFG-edge pass) and one spurious
DataFlow edge elsewhere.  `hasInitEdge` is computed over outgoing edges of
any kind, so no DataFlow edge to the Loop is created, and the spurious
edge is removed: the initializer ends with zero outgoing DataFlow edges,
not exactly one. -/

def c3Graph : ComputeGraph :=
  { nextNodeId := 4, nextEdgeId := 2,
    nodes :=
      [(1, { kind := .Variable, id := 1, name := "i", sourceLine := 5,
             outputNodes := [2, 3] }),
       (2, { kind := .Loop, id := 2, name := "for", sourceLine := 10,
             inputNodes := [1] }),
       (3, { kind := .BinaryOp, id := 3, inputNodes := [1] })],
    edges :=
      [(0, { id := 0, kind := .Control, sourceId := 1, targetId := 2,
             label := "cfg" }),
       (1, { id := 1, kind := .DataFlow, sourceId := 1, targetId := 3,
             label := "i" })],
    inEdges := [(2, [0]), (3, [1])],
    outEdges := [(1, [0, 1])] }

def c3LoopInfo : LoopInfo :=
  { loopNodeId := 2, loopVarName := "i", bodyStartLine := 10,
    bodyEndLine := 12 }

/-- C3 counterexample: on `c3Graph` the initializer (node 1) is found, but
after `ConnectLoopVarInitToLoop` it has zero outgoing DataFlow edges — not
exactly one targeting the Loop node — because its pre-existing Control
edge to the Loop suppressed creation of the DataFlow edge while the
cleanup still removed its other DataFlow edge. -/
theorem connectLoopVarInit_zero_dataflow_edges :
    (FindLoopVarInitNode c3Graph c3LoopInfo 10).1 = 1 ∧
    ((ConnectLoopVarInitToLoop c3Graph c3LoopInfo).GetOutgoingEdges
        1).filter (fun e => decide (e.kind = ComputeEdgeKind.DataFlow)) = []
      ∧
    (((ConnectLoopVarInitToLoop c3Graph c3LoopInfo).edges.filter (fun p =>
        decide (p.2.sourceId = 1 ∧
          p.2.kind = ComputeEdgeKind.DataFlow))).length = 0) := by
  refine ⟨by decide, by decide, by decide⟩

/-! #### Supporting lemmas for the amended claim C3 -/

theorem AL.erase_eq_self_of_find?_none {α : Type} {k : Nat} :
    ∀ {l : List (Nat × α)}, AL.find? k l = none → AL.erase k l = l := by
  intro l
  induction l with
  | nil => intro _; rfl
  | cons p rest ih =>
    intro h
    obtain ⟨k', v'⟩ := p
    by_cases hk : k' = k
    · simp [AL.find?, hk] at h
    · simp only [AL.find?, if_neg hk] at h
      simp only [AL.erase, if_neg hk]
      rw [ih h]

theorem removeEdge_edges_eq_erase (g : ComputeGraph) (id : Nat) :
    (g.RemoveEdge id).edges = AL.erase id g.edges := by
  unfold ComputeGraph.RemoveEdge
  cases hf : AL.find? id g.edges with
  | none => simp [AL.erase_eq_self_of_find?_none hf]
  | some e => rfl

theorem foldl_removeEdge_edges :
    ∀ (ids : List Nat) (g : ComputeGraph),
    (ids.foldl ComputeGraph.RemoveEdge g).edges =
      ids.foldl (fun E id => AL.erase id E) g.edges := by
  intro ids
  induction ids with
  | nil => intro g; rfl
  | cons i rest ih =>
    intro g
    simp only [List.foldl_cons]
    rw [ih, removeEdge_edges_eq_erase]

theorem AL.foldl_erase_eq_filter {α : Type} :
    ∀ (ids : List Nat) (l : List (Nat × α)), (l.map Prod.fst).Nodup →
    ids.foldl (fun E id => AL.erase id E) l =
      l.filter (fun p => decide (p.1 ∉ ids)) := by
  intro ids
  induction ids with
  | nil =>
    intro l _
    simp
  | cons i rest ih =>
    intro l hnd
    simp only [List.foldl_cons]
    rw [AL.erase_eq_filter_of_nodup hnd]
    have hnd2 : ((l.filter (fun p => decide (p.1 ≠ i))).map Prod.fst).Nodup := by
      exact List.Nodup.sublist ((List.filter_sublist _).map Prod.fst) hnd
    rw [ih _ hnd2, List.filter_filter]
    apply List.filter_congr
    intro p _
    simp only [List.mem_cons, decide_not, Bool.and_eq_true,
      Bool.not_eq_true', decide_eq_false_iff_not, decide_eq_true_eq, ne_eq]
    by_cases h1 : p.1 = i <;> by_cases h2 : p.1 ∈ rest <;>
      simp [h1, h2]

theorem mem_getOutgoingEdges_iff (g : ComputeGraph) (hwf : OutWF g)
    (n : Nat) (e : ComputeEdge) :
    e ∈ g.GetOutgoingEdges n ↔ (e.id, e) ∈ g.edges ∧ e.sourceId = n := by
  obtain ⟨hnd, hid, _, _, hcomp, hsound⟩ := hwf
  constructor
  · intro h
    rcases List.mem_filterMap.mp h with ⟨eid, hmem, hfind⟩
    have hme : (eid, e) ∈ g.edges := AL.find?_some_mem hfind
    have heid : e.id = eid := hid (eid, e) hme
    refine ⟨heid ▸ hme, ?_⟩
    unfold AL.getD at hmem
    cases hfo : AL.find? n g.outEdges with
    | none => rw [hfo] at hmem; simp at hmem
    | some l =>
      rw [hfo] at hmem
      exact hsound (n, l) (AL.find?_some_mem hfo) eid hmem (eid, e) hme rfl
  · rintro ⟨hmem, hsrc⟩
    apply List.mem_filterMap.mpr
    refine ⟨e.id, ?_, ?_⟩
    · have := hcomp (e.id, e) hmem
      rw [hsrc] at this
      exact this
    · exact AL.find?_eq_some_of_mem_nodup hnd hmem

theorem addEdge_edges (g : ComputeGraph) (src tgt : Nat)
    (kind : ComputeEdgeKind) (lbl : String) :
    ((g.AddEdge src tgt kind lbl).1).edges =
      AL.set g.nextEdgeId
        ⟨g.nextEdgeId, kind, src, tgt, lbl⟩ g.edges := rfl

theorem addEdge_outEdges (g : ComputeGraph) (src tgt : Nat)
    (kind : ComputeEdgeKind) (lbl : String) :
    ((g.AddEdge src tgt kind lbl).1).outEdges =
      AL.upsert src (fun l => l ++ [g.nextEdgeId]) [] g.outEdges := rfl

theorem addEdge_nextEdgeId (g : ComputeGraph) (src tgt : Nat)
    (kind : ComputeEdgeKind) (lbl : String) :
    ((g.AddEdge src tgt kind lbl).1).nextEdgeId = g.nextEdgeId + 1 := rfl

theorem nextEdgeId_not_mem_keys {g : ComputeGraph}
    (hbound : ∀ p ∈ g.edges, p.1 < g.nextEdgeId) :
    g.nextEdgeId ∉ g.edges.map Prod.fst := by
  intro h
  rcases List.mem_map.mp h with ⟨p, hp, hfst⟩
  exact absurd (hfst ▸ hbound p hp) (lt_irrefl _)

theorem addEdge_edges_perm (g : ComputeGraph) (src tgt : Nat)
    (kind : ComputeEdgeKind) (lbl : String)
    (hbound : ∀ p ∈ g.edges, p.1 < g.nextEdgeId) :
    ((g.AddEdge src tgt kind lbl).1).edges.Perm
      ((g.nextEdgeId, ⟨g.nextEdgeId, kind, src, tgt, lbl⟩) :: g.edges) := by
  rw [addEdge_edges]
  exact AL.set_perm_of_not_mem (nextEdgeId_not_mem_keys hbound)

theorem AL.mem_upsert_eq {α : Type} {k : Nat} {f : α → α} {d : α}
    {q : Nat × α} {l : List (Nat × α)} (h : q ∈ AL.upsert k f d l) :
    q ∈ l ∨ q = (k, f (AL.getD l k d)) := by
  unfold AL.upsert at h
  cases hf : AL.find? k l with
  | none =>
    rw [hf] at h
    have hnm := AL.not_mem_keys_of_find?_eq_none hf
    rcases List.mem_cons.mp ((AL.set_perm_of_not_mem hnm).mem_iff.mp h) with
      h2 | h2
    · refine Or.inr ?_
      rw [h2]
      simp [AL.getD, hf]
    · exact Or.inl h2
  | some v =>
    rw [hf] at h
    rcases AL.mem_modify h with h2 | ⟨v', _, hq⟩
    · exact Or.inl h2
    · refine Or.inr ?_
      rw [hq]
      simp [AL.getD, hf]

theorem getD_bound_of_outWF {g : ComputeGraph}
    (hobound : ∀ q ∈ g.outEdges, ∀ eid ∈ q.2, eid < g.nextEdgeId)
    (n : Nat) : ∀ eid ∈ AL.getD g.outEdges n [], eid < g.nextEdgeId := by
  intro eid h
  unfold AL.getD at h
  cases hf : AL.find? n g.outEdges with
  | none => rw [hf] at h; simp at h
  | some l =>
    rw [hf] at h
    exact hobound (n, l) (AL.find?_some_mem hf) eid h

theorem addEdge_preserves_OutWF (g : ComputeGraph) (src tgt : Nat)
    (kind : ComputeEdgeKind) (lbl : String) (hwf : OutWF g) :
    OutWF ((g.AddEdge src tgt kind lbl).1) := by
  obtain ⟨hnd, hid, hbound, hobound, hcomp, hsound⟩ := hwf
  have hperm := addEdge_edges_perm g src tgt kind lbl hbound
  have hmemE : ∀ p, p ∈ ((g.AddEdge src tgt kind lbl).1).edges ↔
      p = (g.nextEdgeId, ⟨g.nextEdgeId, kind, src, tgt, lbl⟩) ∨
      p ∈ g.edges := by
    intro p
    rw [hperm.mem_iff]
    simp
  have houtval : AL.getD ((g.AddEdge src tgt kind lbl).1).outEdges src [] =
      AL.getD g.outEdges src [] ++ [g.nextEdgeId] := by
    rw [addEdge_outEdges]
    exact AL.getD_upsert_self _
  have hgb := getD_bound_of_outWF hobound src
  refine ⟨?_, ?_, ?_, ?_, ?_, ?_⟩
  · have hkeys := hperm.map Prod.fst
    exact hkeys.nodup_iff.mpr
      (List.nodup_cons.mpr ⟨nextEdgeId_not_mem_keys hbound, hnd⟩)
  · intro p hp
    rcases (hmemE p).mp hp with h | h
    · rw [h]
    · exact hid p h
  · intro p hp
    rw [addEdge_nextEdgeId]
    rcases (hmemE p).mp hp with h | h
    · rw [h]; exact Nat.lt_succ_self _
    · exact Nat.lt_succ_of_lt (hbound p h)
  · intro q hq eid heid
    rw [addEdge_nextEdgeId]
    rw [addEdge_outEdges] at hq
    rcases AL.mem_upsert_eq hq with h | h
    · exact Nat.lt_succ_of_lt (hobound q h eid heid)
    · rw [h] at heid
      rcases List.mem_append.mp heid with h2 | h2
      · exact Nat.lt_succ_of_lt (hgb eid h2)
      · simp at h2
        rw [h2]
        exact Nat.lt_succ_self _
  · intro p hp
    rcases (hmemE p).mp hp with h | h
    · rw [h, houtval]
      exact List.mem_append.mpr (Or.inr (by simp))
    · by_cases hs : p.2.sourceId = src
      · rw [hs, houtval]
        exact List.mem_append.mpr (Or.inl (hs ▸ hcomp p h))
      · rw [addEdge_outEdges, AL.getD_upsert_ne hs]
        exact hcomp p h
  · intro q hq eid heid p hp hpe
    rw [addEdge_outEdges] at hq
    rcases (hmemE p).mp hp with hpn | hpo
    · -- p is the new edge: eid = nextEdgeId
      have heidv : eid = g.nextEdgeId := by rw [hpn] at hpe; rw [← hpe]
      rcases AL.mem_upsert_eq hq with h | h
      · exact absurd (hobound q h eid heid)
          (by rw [heidv]; exact lt_irrefl _)
      · rw [h]
        rw [hpn]
    · -- p is an old edge: eid < nextEdgeId
      have hlt : eid < g.nextEdgeId := hpe ▸ hbound p hpo
      rcases AL.mem_upsert_eq hq with h | h
      · exact hsound q h eid heid p hpo hpe
      · rw [h] at heid
        rcases List.mem_append.mp heid with h2 | h2
        · -- eid listed under src in the old adjacency
          rw [h]
          unfold AL.getD at h2
          cases hf : AL.find? src g.outEdges with
          | none => rw [hf] at h2; simp at h2
          | some l =>
            rw [hf] at h2
            exact hsound (src, l) (AL.find?_some_mem hf) eid h2 p hpo hpe
        · simp at h2
          exact absurd (h2 ▸ hlt) (lt_irrefl _)

theorem connectNodes_preserves_OutWF (g : ComputeGraph) (a b : Nat)
    (kind : ComputeEdgeKind) (lbl : String) (hwf : OutWF g) :
    OutWF (ConnectNodes g a b kind lbl) := by
  unfold ConnectNodes
  split
  · exact hwf
  · split
    · exact hwf
    · exact addEdge_preserves_OutWF g a b kind lbl hwf

theorem findLoopVarInit_ne_loop (g : ComputeGraph) (li : LoopInfo)
    (L : Int) :
    (FindLoopVarInitNode g li L).1 = 0 ∨
    (FindLoopVarInitNode g li L).1 ≠ li.loopNodeId := by
  unfold FindLoopVarInitNode
  refine @List.foldlRecOn _ _
    (fun r : Nat × Int => r.1 = 0 ∨ r.1 ≠ li.loopNodeId) g.nodes _ (0, 0)
    (Or.inl rfl) ?_
  intro acc hacc p _
  dsimp only
  by_cases h1 : p.1 = li.loopNodeId
  · rw [if_pos h1]; exact hacc
  · rw [if_neg h1]
    by_cases h2 : p.2.name = li.loopVarName ∧ p.2.kind = .Variable ∧
        p.2.sourceLine > 0 ∧ p.2.sourceLine < L ∧ p.2.sourceLine > acc.2
    · rw [if_pos h2]; exact Or.inr h1
    · rw [if_neg h2]; exact hacc

/-- C3 (amended): when the loop's external initializer node is found,
after `ConnectLoopVarInitToLoop` every outgoing DataFlow edge of that
initializer targets the Loop node; and when the initializer had no
outgoing edge to the Loop node beforehand (of any kind), it ends with
exactly one outgoing DataFlow edge, whose target is the Loop node.
(The claim's unconditional "exactly one" fails: a pre-existing
non-DataFlow edge to the Loop node suppresses creation of the DataFlow
edge, see the counterexample.) -/
theorem connectLoopVarInit_dataflow_edges
    (g : ComputeGraph) (li : LoopInfo) (loopNode : ComputeNode)
    (initId : Nat)
    (hwf : OutWF g)
    (hli : li.loopNodeId ≠ 0)
    (hvar : li.loopVarName ≠ "")
    (hloop : g.GetNode li.loopNodeId = some loopNode)
    (hinit : (FindLoopVarInitNode g li loopNode.sourceLine).1 = initId)
    (hinit0 : initId ≠ 0) :
    (∀ p ∈ (ConnectLoopVarInitToLoop g li).edges,
        p.2.sourceId = initId → p.2.kind = ComputeEdgeKind.DataFlow →
        p.2.targetId = li.loopNodeId) ∧
    ((∀ p ∈ g.edges, p.2.sourceId = initId →
        p.2.targetId ≠ li.loopNodeId) →
      ((ConnectLoopVarInitToLoop g li).edges.filter (fun p =>
        decide (p.2.sourceId = initId ∧
          p.2.kind = ComputeEdgeKind.DataFlow))).length = 1) := by
  have hinitne : initId ≠ li.loopNodeId := by
    rcases findLoopVarInit_ne_loop g li loopNode.sourceLine with h | h
    · rw [hinit] at h; exact absurd h hinit0
    · rw [hinit] at h; exact h
  -- the wrapper reduces to the core
  have hred : ConnectLoopVarInitToLoop g li =
      ConnectLoopVarInitCore g li initId := by
    unfold ConnectLoopVarInitToLoop
    rw [if_neg (by push_neg; exact ⟨hli, hvar⟩), hloop]
    simp only [hinit, if_neg hinit0]
  rw [hred]
  -- name the intermediate values of the core
  set g1 := if (g.GetOutgoingEdges initId).any
      (fun e => decide (e.targetId = li.loopNodeId)) then g
    else ConnectNodes g initId li.loopNodeId .DataFlow
      ("init:" ++ li.loopVarName) with hg1
  set toRemove := ((g1.GetOutgoingEdges initId).filter
    (fun e => decide (¬e.targetId = li.loopNodeId ∧
      e.kind = ComputeEdgeKind.DataFlow))).map (fun e => e.id) with htr
  have hwf1 : OutWF g1 := by
    rw [hg1]
    split
    · exact hwf
    · exact connectNodes_preserves_OutWF g initId li.loopNodeId _ _ hwf
  have hEfinal : (ConnectLoopVarInitCore g li initId).edges =
      g1.edges.filter (fun p => decide (p.1 ∉ toRemove)) := by
    calc (ConnectLoopVarInitCore g li initId).edges
        = (toRemove.foldl ComputeGraph.RemoveEdge g1).edges := rfl
      _ = toRemove.foldl (fun E id => AL.erase id E) g1.edges :=
          foldl_removeEdge_edges toRemove g1
      _ = g1.edges.filter (fun p => decide (p.1 ∉ toRemove)) :=
          AL.foldl_erase_eq_filter toRemove g1.edges hwf1.1
  have hin_toRemove : ∀ p ∈ g1.edges, p.2.sourceId = initId →
      p.2.targetId ≠ li.loopNodeId →
      p.2.kind = ComputeEdgeKind.DataFlow → p.1 ∈ toRemove := by
    intro p hp hsrc htgt hkind
    rw [htr]
    apply List.mem_map.mpr
    refine ⟨p.2, ?_, hwf1.2.1 p hp⟩
    apply List.mem_filter.mpr
    constructor
    · apply (mem_getOutgoingEdges_iff g1 hwf1 initId p.2).mpr
      refine ⟨?_, hsrc⟩
      rw [hwf1.2.1 p hp]
      exact hp
    · simp [htgt, hkind]
  have hout_toRemove : ∀ p ∈ g1.edges, p.1 ∈ toRemove →
      p.2.targetId ≠ li.loopNodeId ∧
      p.2.kind = ComputeEdgeKind.DataFlow := by
    intro p hp hin
    rw [htr] at hin
    rcases List.mem_map.mp hin with ⟨e, he, heid⟩
    rcases List.mem_filter.mp he with ⟨hout, hcondb⟩
    have hme := (mem_getOutgoingEdges_iff g1 hwf1 initId e).mp hout
    have h1 : AL.find? p.1 g1.edges = some p.2 :=
      AL.find?_eq_some_of_mem_nodup hwf1.1 hp
    have h2 : AL.find? p.1 g1.edges = some e := by
      rw [← heid]
      exact AL.find?_eq_some_of_mem_nodup hwf1.1 hme.1
    have hep : e = p.2 := by
      rw [h1] at h2
      exact (Option.some.inj h2).symm
    rw [← hep]
    simpa using hcondb
  constructor
  · -- every surviving DataFlow edge out of the initializer targets the Loop
    intro p hp hsrc hkind
    by_contra htgt
    rw [hEfinal] at hp
    rcases List.mem_filter.mp hp with ⟨hp1, hp2⟩
    simp only [decide_eq_true_eq] at hp2
    exact hp2 (hin_toRemove p hp1 hsrc htgt hkind)
  · -- exactly one when there was no prior edge to the Loop node
    intro hnoedge
    have hnoout : ∀ e ∈ g.GetOutgoingEdges initId,
        e.targetId ≠ li.loopNodeId := by
      intro e he
      have h := (mem_getOutgoingEdges_iff g hwf initId e).mp he
      exact hnoedge (e.id, e) h.1 h.2
    have hanyF : ((g.GetOutgoingEdges initId).any
        (fun e => decide (e.targetId = li.loopNodeId))) = false := by
      apply List.any_eq_false.mpr
      intro e he
      simp only [decide_eq_true_eq]
      exact hnoout e he
    have hg1e : g1 = (g.AddEdge initId li.loopNodeId
        ComputeEdgeKind.DataFlow ("init:" ++ li.loopVarName)).1 := by
      rw [hg1, hanyF]
      rw [if_neg (by simp)]
      unfold ConnectNodes
      rw [if_neg (by push_neg; exact ⟨hinitne, hinit0, hli⟩)]
      have hded : ¬((g.GetOutgoingEdges initId).any (fun e =>
          decide (e.targetId = li.loopNodeId ∧
            e.kind = ComputeEdgeKind.DataFlow ∧
            e.label = "init:" ++ li.loopVarName)) = true) := by
        intro h
        rcases List.any_eq_true.mp h with ⟨e, he, hdec⟩
        exact hnoout e he (of_decide_eq_true hdec).1
      rw [if_neg hded]
    have hperm : g1.edges.Perm
        ((g.nextEdgeId,
          (⟨g.nextEdgeId, ComputeEdgeKind.DataFlow, initId, li.loopNodeId,
            "init:" ++ li.loopVarName⟩ : ComputeEdge)) :: g.edges) := by
      rw [hg1e]
      exact addEdge_edges_perm g _ _ _ _ hwf.2.2.1
    rw [hEfinal, List.filter_filter]
    have hcong : g1.edges.filter (fun p =>
        decide (p.2.sourceId = initId ∧
          p.2.kind = ComputeEdgeKind.DataFlow) &&
        decide (p.1 ∉ toRemove)) =
      g1.edges.filter (fun p =>
        decide (p.2.sourceId = initId ∧
          p.2.kind = ComputeEdgeKind.DataFlow ∧
          p.2.targetId = li.loopNodeId)) := by
      apply List.filter_congr
      intro p hp
      by_cases hsrc : p.2.sourceId = initId
      · by_cases hkind : p.2.kind = ComputeEdgeKind.DataFlow
        · by_cases htgt : p.2.targetId = li.loopNodeId
          · have hnotin : p.1 ∉ toRemove := fun hin =>
              (hout_toRemove p hp hin).1 htgt
            simp [hsrc, hkind, htgt, hnotin]
          · have hin := hin_toRemove p hp hsrc htgt hkind
            simp [hsrc, hkind, htgt, hin]
        · simp [hsrc, hkind]
      · simp [hsrc]
    rw [hcong, (hperm.filter _).length_eq, List.filter_cons]
    have hnewpass : (decide
        (((⟨g.nextEdgeId, ComputeEdgeKind.DataFlow, initId, li.loopNodeId,
          "init:" ++ li.loopVarName⟩ : ComputeEdge)).sourceId = initId ∧
         ((⟨g.nextEdgeId, ComputeEdgeKind.DataFlow, initId, li.loopNodeId,
          "init:" ++ li.loopVarName⟩ : ComputeEdge)).kind =
           ComputeEdgeKind.DataFlow ∧
         ((⟨g.nextEdgeId, ComputeEdgeKind.DataFlow, initId, li.loopNodeId,
          "init:" ++ li.loopVarName⟩ : ComputeEdge)).targetId =
           li.loopNodeId)) = true := by
      simp
    have hrest : g.edges.filter (fun p =>
        decide (p.2.sourceId = initId ∧
          p.2.kind = ComputeEdgeKind.DataFlow ∧
          p.2.targetId = li.loopNodeId)) = [] := by
      apply List.filter_eq_nil.mpr
      intro p hp
      simp only [decide_eq_true_eq, not_and]
      intro hsrc _
      exact hnoedge p hp hsrc
    simp [hrest]
    intro a b hmem hsrc _
    exact hnoedge (a, b) hmem hsrc

/-- C3 witness: the amended theorem applied to a concrete graph in which
the initializer (node 1, `i@5`) has one spurious DataFlow edge and no
edge to the Loop node: afterwards it has exactly one outgoing DataFlow
edge. -/
def c3WitnessGraph : ComputeGraph :=
  { nextNodeId := 4, nextEdgeId := 1,
    nodes :=
      [(1, { kind := .Variable, id := 1, name := "i", sourceLine := 5,
             outputNodes := [3] }),
       (2, { kind := .Loop, id := 2, name := "for", sourceLine := 10 }),
       (3, { kind := .BinaryOp, id := 3, inputNodes := [1] })],
    edges :=
      [(0, { id := 0, kind := .DataFlow, sourceId := 1, targetId := 3,
             label := "i" })],
    inEdges := [(3, [0])],
    outEdges := [(1, [0])] }

theorem connectLoopVarInit_dataflow_edges_witness :
    ((ConnectLoopVarInitToLoop c3WitnessGraph c3LoopInfo).edges.filter
      (fun p => decide (p.2.sourceId = 1 ∧
        p.2.kind = ComputeEdgeKind.DataFlow))).length = 1 := by
  have h := connectLoopVarInit_dataflow_edges c3WitnessGraph c3LoopInfo
    { kind := .Loop, id := 2, name := "for", sourceLine := 10 } 1
    (by refine ⟨?_, ?_, ?_, ?_, ?_, ?_⟩ <;> decide)
    (by decide) (by decide) (by decide) (by decide) (by decide)
  exact h.2 (by decide)

/-! ### Anchor finding (`ComputeGraphAnchor.cpp`) -/

/-- Clang binary-operator opcodes handled by the anchor visitor
(`clang::BinaryOperatorKind`, restricted to the cases the visitor
inspects; `LAnd` stands for the opcodes outside those cases). -/
inductive BO where
| Add | Sub | Mul | Div | Rem | Shl | Shr | BitAnd | BitOr | BitXor
| Lt | Gt | Le | Ge | EQ | NE
| Assign
| AddAssign | SubAssign | MulAssign | DivAssign | RemAssign
| ShlAssign | ShrAssign | AndAssign | OrAssign | XorAssign
| LAnd
deriving DecidableEq, Repr

/-- Clang unary-operator opcodes inspected by
`ContainsVectorizableOp`. -/
inductive UO where
| Minus | Not | LNot | PreInc | PostInc | PreDec | PostDec
deriving DecidableEq, Repr

/-- The expression shapes the anchor visitor distinguishes. -/
inductive CExpr where
| binOp (op : BO) (lhs rhs : CExpr)
| unaryOp (op : UO) (sub : CExpr)
| arraySub (base idx : CExpr)
| declRef (name : String)
| intLit (n : Int)
deriving DecidableEq, Repr

/-- `AnchorPoint` (the scored fields; the AST references are omitted). -/
structure AnchorPoint where
  expectedKind : ComputeNodeKind
  opCode : OpCode
  loopDepth : Int
  isInLoop : Bool
deriving DecidableEq, Repr

/-- `AnchorFinder::ComputeAnchorScore`: 100 per loop level, an opcode
bonus (`Mul` 80; `Add/Sub/Shl/Shr/And/Or/Xor` 60; `Div/Mod` 40), and a
kind bonus (`ArrayAccess` 70, `Call` 50). -/
def ComputeAnchorScore (anchor : AnchorPoint) : Int :=
  let score : Int := anchor.loopDepth * 100
  let score := score +
    match anchor.opCode with
    | .Mul => 80
    | .Add | .Sub | .Shl | .Shr | .And | .Or | .Xor => 60
    | .Div | .Mod => 40
    | _ => 0
  let score := if anchor.expectedKind = .ArrayAccess then score + 70
    else score
  let score := if anchor.expectedKind = .Call then score + 50 else score
  score

/-- `AnchorVisitor::IsVectorizableBinaryOp`. -/
def IsVectorizableBinaryOp : BO → Bool
| .Add | .Sub | .Mul | .Div | .Rem | .Shl | .Shr
| .BitAnd | .BitOr | .BitXor
| .Lt | .Gt | .Le | .Ge | .EQ | .NE
| .AddAssign | .SubAssign | .MulAssign | .DivAssign | .RemAssign
| .ShlAssign | .ShrAssign | .AndAssign | .OrAssign | .XorAssign => true
| _ => false

/-- `AnchorVisitor::GetOpCode`. -/
def GetOpCode : BO → OpCode
| .Add | .AddAssign => .Add
| .Sub | .SubAssign => .Sub
| .Mul | .MulAssign => .Mul
| .Div | .DivAssign => .Div
| .Rem | .RemAssign => .Mod
| .Shl | .ShlAssign => .Shl
| .Shr | .ShrAssign => .Shr
| .BitAnd | .AndAssign => .And
| .BitOr | .OrAssign => .Or
| .BitXor | .XorAssign => .Xor
| .Lt => .Lt
| .Gt => .Gt
| .Le => .Le
| .Ge => .Ge
| .EQ => .Eq
| .NE => .Ne
| .Assign => .Assign
| _ => .Unknown

/-- `AnchorVisitor::ContainsArrayAccess`. -/
def ContainsArrayAccess : CExpr → Bool
| .arraySub _ _ => true
| .binOp _ l r => ContainsArrayAccess l || ContainsArrayAccess r
| .unaryOp _ s => ContainsArrayAccess s
| .declRef _ => false
| .intLit _ => false

/-- `AnchorVisitor::ContainsVectorizableOp`. -/
def ContainsVectorizableOp : CExpr → Bool
| .binOp op l r =>
  IsVectorizableBinaryOp op || ContainsVectorizableOp l ||
    ContainsVectorizableOp r
| .unaryOp op s =>
  (match op with
   | .Minus | .Not | .LNot => true
   | _ => false) || ContainsVectorizableOp s
| .arraySub b i => ContainsVectorizableOp b || ContainsVectorizableOp i
| .declRef _ => false
| .intLit _ => false

/-- `AnchorVisitor::AddAnchor` (every call site passes
`ComputeNodeKind::BinaryOp` as the expected kind). -/
def AddAnchor (kind : ComputeNodeKind) (opCode : OpCode)
    (currentLoopDepth : Int) : AnchorPoint :=
  { expectedKind := kind, opCode := opCode, loopDepth := currentLoopDepth,
    isInLoop := currentLoopDepth > 0 }

/-- `AnchorVisitor::VisitBinaryOperator` for a statement-level binary
operator: at statement level the expression is its own statement, so
`IsInLoopCondition`, `IsInIfCondition` and `IsSimpleArrayIndexExpr` are
false, `addedStmts` does not yet contain it, and
`CheckTopLevelExpression` finds no vectorizable `BinaryOperator`
parent. -/
def VisitTopLevelBinaryOperator (e : CExpr) (currentLoopDepth : Int)
    (isInLoopIncrement : Bool) : Option AnchorPoint :=
  match e with
  | .binOp op lhs rhs =>
    if isInLoopIncrement then none
    else if op = BO.Assign then
      -- ProcessAssignment
      if ContainsVectorizableOp rhs then
        some (AddAnchor .BinaryOp .Assign currentLoopDepth)
      else if ContainsArrayAccess rhs && ContainsArrayAccess lhs then
        some (AddAnchor .BinaryOp .Assign currentLoopDepth)
      else none
    else
      -- ProcessNonAssignment, then CheckTopLevelExpression
      if !IsVectorizableBinaryOp op then none
      else some (AddAnchor .BinaryOp (GetOpCode op) currentLoopDepth)
  | _ => none

/-! ### Claim C1 — the simple-accumulator anchor score

The spec's formula `100·loop_depth + op_bonus + kind_bonus` matches
`ComputeAnchorScore`, but the visitor emits every anchor with expected
kind `BinaryOp` (all three `AddAnchor` call sites in
`ComputeGraphAnchor.cpp` pass `ComputeNodeKind::BinaryOp`), so the
ArrayAccess kind bonus of 70 is never applied: the anchor at
`sum += a[i] * b[i]` at loop depth 1 scores 100 + 60 = 160, not 230. -/

/-- The anchor statement `sum += a[i] * b[i]`. -/
def simpleAccumulatorStmt : CExpr :=
  .binOp .AddAssign (.declRef "sum")
    (.binOp .Mul (.arraySub (.declRef "a") (.declRef "i"))
      (.arraySub (.declRef "b") (.declRef "i")))

/-- C1 counterexample: the anchor the visitor emits for
`sum += a[i] * b[i]` at loop depth 1 has expected kind `BinaryOp` and
scores 160, not 230 as the claim states. -/
theorem simple_accumulator_anchor_scores_160_not_230 :
    (VisitTopLevelBinaryOperator simpleAccumulatorStmt 1 false).map
        (fun a => (a.expectedKind, a.opCode, ComputeAnchorScore a)) =
      some (.BinaryOp, .Add, 160) ∧ (160 : Int) ≠ 230 := by
  constructor
  · rfl
  · decide

/-- Spec-side opcode bonus, written from the spec's words. -/
def specOpBonus : OpCode → Int
| .Mul => 80
| .Add | .Sub | .Shl | .Shr | .And | .Or | .Xor => 60
| .Div | .Mod => 40
| _ => 0

/-- Spec-side kind bonus, written from the spec's words. -/
def specKindBonus : ComputeNodeKind → Int
| .ArrayAccess => 70
| .Call => 50
| _ => 0

/-- C1 (amended): `ComputeAnchorScore` follows the spec formula
`100·loop_depth + op_bonus + kind_bonus`, and every anchor emitted by the
visitor carries expected kind `BinaryOp`, so the anchor at
`sum += a[i] * b[i]` at loop depth 1 receives no kind bonus and scores
160 (100 for the loop level plus 60 for the `+=`/Add opcode). -/
theorem anchorScore_formula_and_simple_accumulator :
    (∀ a : AnchorPoint, ComputeAnchorScore a =
      100 * a.loopDepth + specOpBonus a.opCode +
        specKindBonus a.expectedKind) ∧
    (∀ (e : CExpr) (d : Int) (inc : Bool) (a : AnchorPoint),
      VisitTopLevelBinaryOperator e d inc = some a →
      a.expectedKind = .BinaryOp) ∧
    ((VisitTopLevelBinaryOperator simpleAccumulatorStmt 1 false).map
      ComputeAnchorScore = some 160) := by
  refine ⟨?_, ?_, ?_⟩
  · intro a
    unfold ComputeAnchorScore specOpBonus specKindBonus
    cases hk : a.expectedKind <;> cases ho : a.opCode <;> simp [hk, ho] <;>
      ring
  · intro e d inc a h
    cases e with
    | binOp op lhs rhs =>
      unfold VisitTopLevelBinaryOperator at h
      by_cases hinc : inc
      · simp [hinc] at h
      · by_cases hop : op = BO.Assign
        · simp [hinc, hop] at h
          by_cases hv : ContainsVectorizableOp rhs
          · simp [hv, AddAnchor] at h
            rw [← h]
          · simp [hv, AddAnchor] at h
            rw [← h.2]
        · simp [hinc, hop] at h
          by_cases hvec : IsVectorizableBinaryOp op
          · simp [hvec, AddAnchor] at h
            rw [← h]
          · simp [hvec] at h
    | unaryOp op s => exact absurd h (by simp [VisitTopLevelBinaryOperator])
    | arraySub b i => exact absurd h (by simp [VisitTopLevelBinaryOperator])
    | declRef n => exact absurd h (by simp [VisitTopLevelBinaryOperator])
    | intLit n => exact absurd h (by simp [VisitTopLevelBinaryOperator])
  · rfl

/-- C1 witness: the amended theorem applied at the simple-accumulator
anchor itself. -/
theorem anchorScore_formula_witness :
    (VisitTopLevelBinaryOperator simpleAccumulatorStmt 1 false).map
      (fun a => a.expectedKind) = some .BinaryOp := by
  have h := anchorScore_formula_and_simple_accumulator
  have h2 := h.2.1 simpleAccumulatorStmt 1 false
    (AddAnchor .BinaryOp .Add 1) rfl
  simp only [VisitTopLevelBinaryOperator, simpleAccumulatorStmt]
  rfl

/-! ### Backward trace of definitions (`ComputeGraphBuilderTrace.cpp`)

Statements are embedded with their identity (`sid`, standing for the
`clang::Stmt*` pointer), spelling line, and the shape the trace
distinguishes (declaration, assignment — plain or compound — and
increment/decrement).  `processedStmts` together with
`BuildExpressionTree`/`CreateDefinitionNode` is abstracted as the
environment function `nodeOf` (0 = lowering failed), and the cached
DeclRefExpr nodes of `GetVariableNodeFromModStmt` as `lhsNodeOf`.  The
edge-emission of one first-time `ProcessSingleVariableReference` call for
a non-parameter variable is modelled; the recursive calls only add edges
for other statements. -/

/-- A variable reference: the referenced declaration (`decl`, standing
for the `VarDecl*` pointer) and its spelled name. -/
structure SRef where
  decl : Nat
  name : String
deriving DecidableEq, Repr

/-- Statement shapes distinguished by the trace visitors. -/
inductive MStmtShape where
| declStmt (decls : List SRef)
| assign (lhs : SRef) (compound : Bool)
| incDec (sub : SRef)
| other
deriving DecidableEq, Repr

/-- An embedded statement. -/
structure MStmt where
  sid : Nat
  line : Int
  shape : MStmtShape
deriving DecidableEq, Repr

/-- `ComputeGraphBuilder::StmtDefinesVariable` (matches by name). -/
def StmtDefinesVariable (s : MStmt) (varName : String) : Bool :=
  match s.shape with
  | .declStmt ds => ds.any (fun r => r.name == varName)
  | .assign lhs _ => lhs.name == varName
  | .incDec sub => sub.name == varName
  | .other => false

/-- `ModificationFinder` via `FindVariableModifications` (matches the
declaration): every assignment (plain or compound) or `++`/`--` of the
target declaration in the function body, in traversal order. -/
def FindVariableModifications (body : List MStmt) (target : Nat) :
    List MStmt :=
  body.filter (fun s =>
    match s.shape with
    | .assign lhs _ => lhs.decl == target
    | .incDec sub => sub.decl == target
    | _ => false)

/-- `DefinitionFinder` via `FindDefinitionsInFunction` (matches by name;
includes `DeclStmt`s). -/
def FindDefinitionsInFunction (body : List MStmt) (varName : String) :
    List MStmt :=
  body.filter (fun s =>
    match s.shape with
    | .declStmt ds => ds.any (fun r => r.name == varName)
    | .assign lhs _ => lhs.name == varName
    | .incDec sub => sub.name == varName
    | .other => false)

/-- `CPGContext::GetDefinedVarsCached`: the GEN set of a statement. -/
def GetDefinedVarsCached (s : MStmt) : List String :=
  match s.shape with
  | .declStmt ds => ds.map (fun r => r.name)
  | .assign lhs _ => [lhs.name]
  | .incDec sub => [sub.name]
  | .other => []

/-- Stable insertion used to model the `std::sort` by ascending line
(ties keep their relative order). -/
def insertByLine (d : MStmt) : List MStmt → List MStmt
| [] => [d]
| x :: xs => if d.line ≤ x.line then d :: x :: xs else x :: insertByLine d xs

def sortByLine : List MStmt → List MStmt
| [] => []
| x :: xs => insertByLine x (sortByLine xs)

/-- The `processedDefs` set of `FilterKilledDefinitions`: keep the first
occurrence of each statement identity. -/
def dedupeBySid : List MStmt → List Nat → List MStmt
| [], _ => []
| d :: rest, seen =>
  if d.sid ∈ seen then dedupeBySid rest seen
  else d :: dedupeBySid rest (d.sid :: seen)

/-- The kill loop of `FilterKilledDefinitions`: a definition is dropped
when a later (in sorted order) definition of the same variable exists. -/
def killLoop (varName : String) : List MStmt → List MStmt
| [] => []
| d :: rest =>
  if rest.any (fun l => (GetDefinedVarsCached l).contains varName)
  then killLoop varName rest
  else d :: killLoop varName rest

/-- `ComputeGraphBuilder::FilterKilledDefinitions`: lists of at most one
definition pass through unchanged; otherwise deduplicate by statement
identity, keep only definitions strictly before the use line, sort by
line, restrict to the last `MAX_DEFS_TO_CHECK = 10`, and drop killed
definitions. -/
def FilterKilledDefinitions (defs : List MStmt) (useLine : Int)
    (varName : String) : List MStmt :=
  if defs.length ≤ 1 then defs
  else
    let defInfos := (dedupeBySid defs []).filter
      (fun d => decide (d.line < useLine))
    if defInfos.isEmpty then []
    else
      let sorted := sortByLine defInfos
      let startIdx := if sorted.length > 10 then sorted.length - 10 else 0
      killLoop varName (sorted.drop startIdx)

/-- One iteration of the loop in
`ComputeGraphBuilder::FindNearestDefinitions`, on the accumulator
`(nearestBackwardDef, nearestBackwardLine, loopCarriedDef,
maxLoopLine)`. -/
def nearestStep (varName : String) (currentLine : Int) (cli : LoopInfo)
    (acc : Option MStmt × Int × Option MStmt × Int) (d : MStmt) :
    Option MStmt × Int × Option MStmt × Int :=
  if ¬StmtDefinesVariable d varName then acc
  else if d.line < currentLine then
    (if d.line > acc.2.1 then (some d, d.line, acc.2.2.1, acc.2.2.2)
     else acc)
  else if cli.loopNodeId ≠ 0 then
    (if d.line ≥ cli.bodyStartLine ∧ d.line ≤ cli.bodyEndLine then
      (if d.line > acc.2.2.2 then (acc.1, acc.2.1, some d, d.line)
       else acc)
     else acc)
  else acc

/-- `ComputeGraphBuilder::FindNearestDefinitions`. -/
def FindNearestDefinitions (filteredDefs : List MStmt) (varName : String)
    (currentLine : Int) (cli : LoopInfo) :
    Option MStmt × Int × Option MStmt × Int :=
  filteredDefs.foldl (nearestStep varName currentLine cli)
    (none, -1, none, -1)

/-- `ComputeGraphBuilder::IsLoopCarriedDependency`. -/
def IsLoopCarriedDependency (cli : LoopInfo) (modLine currentLine : Int) :
    Bool :=
  if cli.loopNodeId = 0 then false
  else decide (modLine ≥ cli.bodyStartLine ∧ modLine ≤ cli.bodyEndLine ∧
    modLine ≥ currentLine)

/-- `ComputeGraphBuilder::IsLoopVariable` with the loop node's source
line supplied (`loopLine = 0` when the loop node is absent). -/
def IsLoopVariable (cli : LoopInfo) (loopLine : Int) (varName : String)
    (currentLine : Int) : Bool :=
  if cli.loopVarName = "" then false
  else if varName ≠ cli.loopVarName then false
  else decide ((loopLine > 0 ∧ currentLine = loopLine) ∨
    (currentLine ≥ cli.bodyStartLine ∧ currentLine ≤ cli.bodyEndLine))

/-- The lowering caches consulted during the backward trace. -/
structure TraceEnv where
  nodeOf : Nat → Nat
  lhsNodeOf : Nat → Option Nat

/-- An edge the trace emits. -/
structure TraceEdge where
  src : Nat
  tgt : Nat
  kind : ComputeEdgeKind
  label : String
deriving DecidableEq, Repr

/-- `ComputeGraphBuilder::GetVariableNodeFromModStmt`, with the caller's
fallback to the modification node folded in. -/
def GetVariableNodeFromModStmt (env : TraceEnv) (m : MStmt)
    (modNodeId : Nat) : Nat :=
  match m.shape with
  | .assign _ _ | .incDec _ =>
    match env.lhsNodeOf m.sid with
    | some t => t
    | none => modNodeId
  | _ => modNodeId

/-- The edges `ComputeGraphBuilder::ProcessVariableModification` adds for
one modification statement (its recursive trace calls add edges for other
statements only). -/
def ProcessVariableModification (env : TraceEnv) (cli : LoopInfo)
    (m : MStmt) (varName : String) (varNodeId : Nat) (useStmt : MStmt) :
    List TraceEdge :=
  if m.sid = useStmt.sid then []
  else
    let modNodeId := env.nodeOf m.sid
    if modNodeId = 0 then []
    else
      let targetVarNodeId := GetVariableNodeFromModStmt env m modNodeId
      if IsLoopCarriedDependency cli m.line useStmt.line then
        [⟨modNodeId, varNodeId, .LoopCarried, varName ++ " (next iter)"⟩]
      else if m.line < useStmt.line then
        [⟨targetVarNodeId, varNodeId, .DataFlow, varName⟩]
      else []

/-- The edge `ComputeGraphBuilder::ProcessDefinitionNode` adds. -/
def ProcessDefinitionNode (env : TraceEnv) (defStmt : MStmt)
    (varName : String) (varNodeId : Nat) (edgeKind : ComputeEdgeKind) :
    List TraceEdge :=
  let defNodeId := env.nodeOf defStmt.sid
  if defNodeId = 0 then []
  else
    let edgeLabel := if edgeKind = ComputeEdgeKind.LoopCarried
      then varName ++ " (next iter)" else varName
    [⟨defNodeId, varNodeId, edgeKind, edgeLabel⟩]

/-- The edges one first-time
`ComputeGraphBuilder::ProcessSingleVariableReference` call adds for a
non-parameter variable use: the modification scan over the function body,
then the reaching-definitions path (interprocedural definitions with the
in-function scan as fallback, kill filtering, nearest-definition
selection). -/
def ProcessSingleVariableReferenceEdges (env : TraceEnv) (cli : LoopInfo)
    (loopLine : Int) (body : List MStmt) (varRef : SRef)
    (varNodeId : Nat) (useStmt : MStmt) (interprocDefs : List MStmt) :
    List TraceEdge :=
  let varName := varRef.name
  let currentLine := useStmt.line
  if IsLoopVariable cli loopLine varName currentLine then []
  else
    let mods := FindVariableModifications body varRef.decl
    let modEdges := mods.foldr (fun m acc =>
      ProcessVariableModification env cli m varName varNodeId useStmt ++
        acc) []
    if varNodeId = 0 then modEdges
    else
      let defs := if interprocDefs.isEmpty
        then FindDefinitionsInFunction body varName
        else interprocDefs
      let filteredDefs := FilterKilledDefinitions defs currentLine varName
      let r := FindNearestDefinitions filteredDefs varName currentLine cli
      let nearestEdges := match r.1 with
        | some d => ProcessDefinitionNode env d varName varNodeId .DataFlow
        | none => []
      let lcEdges := match r.2.2.1, r.1 with
        | some d, some nb =>
          if d.sid ≠ nb.sid then
            ProcessDefinitionNode env d varName varNodeId .LoopCarried
          else []
        | some d, none =>
          ProcessDefinitionNode env d varName varNodeId .LoopCarried
        | none, _ => []
      modEdges ++ nearestEdges ++ lcEdges

/-! #### Claim C4 counterexample

Two assignments `x = …` at lines 1 and 2 precede the use at line 3 with
no definition in between.  Kill filtering drops the line-1 definition on
the reaching-definitions path, but the modification scan still connects
both assignments as DataFlow predecessors of the use. -/

def c4s1 : MStmt := { sid := 1, line := 1, shape := .assign ⟨1, "x"⟩ false }
def c4s2 : MStmt := { sid := 2, line := 2, shape := .assign ⟨1, "x"⟩ false }
def c4use : MStmt := { sid := 3, line := 3, shape := .other }
def c4Body : List MStmt := [c4s1, c4s2, c4use]

def c4Env : TraceEnv :=
  { nodeOf := fun sid =>
      if sid = 1 then 10 else if sid = 2 then 20 else
      if sid = 3 then 30 else 0,
    lhsNodeOf := fun _ => none }

/-- C4 counterexample: with two assignment definitions of `x` before the
use and no definition in between, the backward trace emits DataFlow
predecessor edges from the nodes of BOTH definitions (node 10 of the
killed line-1 def via the modification scan, node 20 of the last def),
not only from the lexically last one. -/
theorem backward_trace_killed_def_still_dataflow_pred :
    ((⟨10, 30, .DataFlow, "x"⟩ : TraceEdge) ∈
      ProcessSingleVariableReferenceEdges c4Env {} 0 c4Body ⟨1, "x"⟩ 30
        c4use []) ∧
    ((⟨20, 30, .DataFlow, "x"⟩ : TraceEdge) ∈
      ProcessSingleVariableReferenceEdges c4Env {} 0 c4Body ⟨1, "x"⟩ 30
        c4use []) ∧
    (FilterKilledDefinitions [c4s1, c4s2] 3 "x" = [c4s2]) ∧
    (10 : Nat) ≠ 20 := by
  refine ⟨?_, ?_, ?_, ?_⟩ <;> decide

/-! #### Supporting lemmas for claim C4 -/

theorem definesVar_eq_contains (s : MStmt) (varName : String) :
    (GetDefinedVarsCached s).contains varName =
      StmtDefinesVariable s varName := by
  apply Bool.eq_iff_iff.mpr
  rw [List.elem_iff]
  cases hs : s.shape <;>
    simp [GetDefinedVarsCached, StmtDefinesVariable, hs, List.any_eq_true,
      List.mem_map]
  all_goals exact eq_comm

theorem insertByLine_perm (d : MStmt) :
    ∀ (l : List MStmt), (insertByLine d l).Perm (d :: l) := by
  intro l
  induction l with
  | nil => simp [insertByLine]
  | cons x xs ih =>
    unfold insertByLine
    by_cases h : d.line ≤ x.line
    · rw [if_pos h]
    · rw [if_neg h]
      exact List.Perm.trans (List.Perm.cons x ih) (List.Perm.swap _ _ _)

theorem sortByLine_perm : ∀ (l : List MStmt), (sortByLine l).Perm l := by
  intro l
  induction l with
  | nil => simp [sortByLine]
  | cons x xs ih =>
    unfold sortByLine
    exact List.Perm.trans (insertByLine_perm x (sortByLine xs))
      (List.Perm.cons x ih)

theorem insertByLine_sorted (d : MStmt) :
    ∀ (l : List MStmt),
    l.Pairwise (fun a b => a.line ≤ b.line) →
    (insertByLine d l).Pairwise (fun a b => a.line ≤ b.line) := by
  intro l
  induction l with
  | nil => intro _; simp [insertByLine]
  | cons x xs ih =>
    intro h
    rcases List.pairwise_cons.mp h with ⟨hx, hxs⟩
    unfold insertByLine
    by_cases hd : d.line ≤ x.line
    · rw [if_pos hd]
      apply List.pairwise_cons.mpr
      refine ⟨?_, h⟩
      intro b hb
      rcases List.mem_cons.mp hb with h1 | h1
      · rw [h1]; exact hd
      · exact le_trans hd (hx b h1)
    · rw [if_neg hd]
      apply List.pairwise_cons.mpr
      constructor
      · intro b hb
        rcases List.mem_cons.mp ((insertByLine_perm d xs).mem_iff.mp hb)
          with h1 | h1
        · rw [h1]
          exact le_of_lt (lt_of_not_le hd)
        · exact hx b h1
      · exact ih hxs

theorem sortByLine_sorted :
    ∀ (l : List MStmt),
    (sortByLine l).Pairwise (fun a b => a.line ≤ b.line) := by
  intro l
  induction l with
  | nil => simp [sortByLine]
  | cons x xs ih =>
    unfold sortByLine
    exact insertByLine_sorted x (sortByLine xs) ih

theorem dedupeBySid_subset :
    ∀ (l : List MStmt) (seen : List Nat), dedupeBySid l seen ⊆ l := by
  intro l
  induction l with
  | nil => intro seen; simp [dedupeBySid]
  | cons d rest ih =>
    intro seen x hx
    unfold dedupeBySid at hx
    by_cases h : d.sid ∈ seen
    · rw [if_pos h] at hx
      exact List.mem_cons_of_mem _ (ih seen hx)
    · rw [if_neg h] at hx
      rcases List.mem_cons.mp hx with h1 | h1
      · rw [h1]; exact List.mem_cons_self _ _
      · exact List.mem_cons_of_mem _ (ih _ h1)

theorem mem_dedupeBySid {d : MStmt} :
    ∀ (l : List MStmt) (seen : List Nat), d ∈ l →
    (∀ b ∈ l, b.sid = d.sid → b = d) → d.sid ∉ seen →
    d ∈ dedupeBySid l seen := by
  intro l
  induction l with
  | nil => intro seen h; simp at h
  | cons x rest ih =>
    intro seen hd hcons hseen
    unfold dedupeBySid
    by_cases h : x.sid ∈ seen
    · rw [if_pos h]
      rcases List.mem_cons.mp hd with h1 | h1
      · exact absurd (h1 ▸ h) hseen
      · exact ih seen h1
          (fun b hb => hcons b (List.mem_cons_of_mem _ hb)) hseen
    · rw [if_neg h]
      rcases List.mem_cons.mp hd with h1 | h1
      · rw [h1]; exact List.mem_cons_self _ _
      · by_cases hx : x = d
        · rw [hx]; exact List.mem_cons_self _ _
        · have hxd : x.sid ≠ d.sid := fun he =>
            hx (hcons x (List.mem_cons_self _ _) he)
          apply List.mem_cons_of_mem
          apply ih (x.sid :: seen) h1
            (fun b hb => hcons b (List.mem_cons_of_mem _ hb))
          intro hm
          rcases List.mem_cons.mp hm with h2 | h2
          · exact hxd h2.symm
          · exact hseen h2

theorem killLoop_subset (varName : String) :
    ∀ (l : List MStmt), killLoop varName l ⊆ l := by
  intro l
  induction l with
  | nil => simp [killLoop]
  | cons d rest ih =>
    intro x hx
    unfold killLoop at hx
    by_cases h : rest.any (fun l => (GetDefinedVarsCached l).contains
      varName)
    · rw [if_pos h] at hx
      exact List.mem_cons_of_mem _ (ih hx)
    · rw [if_neg h] at hx
      rcases List.mem_cons.mp hx with h1 | h1
      · rw [h1]; exact List.mem_cons_self _ _
      · exact List.mem_cons_of_mem _ (ih h1)

theorem killLoop_dominating (varName : String) :
    ∀ (l : List MStmt),
    l.Pairwise (fun a b => a.line ≤ b.line) →
    ∀ w ∈ l, StmtDefinesVariable w varName = true →
    ∃ z ∈ killLoop varName l, StmtDefinesVariable z varName = true ∧
      w.line ≤ z.line := by
  intro l
  induction l with
  | nil => intro _ w h; simp at h
  | cons d rest ih =>
    intro hsorted w hw hdef
    rcases List.pairwise_cons.mp hsorted with ⟨hd, hrest⟩
    unfold killLoop
    by_cases hany : rest.any (fun l => (GetDefinedVarsCached l).contains
      varName)
    · rw [if_pos hany]
      rcases List.any_eq_true.mp hany with ⟨w', hw', hdef'⟩
      rw [definesVar_eq_contains] at hdef'
      rcases List.mem_cons.mp hw with h1 | h1
      · -- w is the dropped head; a later definition dominates it
        rcases ih hrest w' hw' hdef' with ⟨z, hz, hzdef, hzle⟩
        exact ⟨z, hz, hzdef, le_trans (h1 ▸ hd w' hw') hzle⟩
      · rcases ih hrest w h1 hdef with ⟨z, hz, hzdef, hzle⟩
        exact ⟨z, hz, hzdef, hzle⟩
    · rw [if_neg hany]
      rcases List.mem_cons.mp hw with h1 | h1
      · exact ⟨d, List.mem_cons_self _ _, h1 ▸ hdef, h1 ▸ le_refl _⟩
      · rcases ih hrest w h1 hdef with ⟨z, hz, hzdef, hzle⟩
        exact ⟨z, List.mem_cons_of_mem _ hz, hzdef, hzle⟩

/-- Case analysis of one `FindNearestDefinitions` loop iteration: either
the accumulator is kept, or `nearestBackwardDef` is updated to a
definition strictly before the use, or `loopCarriedDef` is updated to a
definition in the loop body at or after the use. -/
theorem nearestStep_cases (varName : String) (cur : Int) (cli : LoopInfo)
    (acc : Option MStmt × Int × Option MStmt × Int) (d : MStmt) :
    (nearestStep varName cur cli acc d = acc) ∨
    (StmtDefinesVariable d varName = true ∧ d.line < cur ∧
      acc.2.1 < d.line ∧
      nearestStep varName cur cli acc d =
        (some d, d.line, acc.2.2.1, acc.2.2.2)) ∨
    (StmtDefinesVariable d varName = true ∧ ¬(d.line < cur) ∧
      cli.loopNodeId ≠ 0 ∧ cli.bodyStartLine ≤ d.line ∧
      d.line ≤ cli.bodyEndLine ∧ acc.2.2.2 < d.line ∧
      nearestStep varName cur cli acc d =
        (acc.1, acc.2.1, some d, d.line)) := by
  unfold nearestStep
  by_cases h1 : ¬StmtDefinesVariable d varName
  · rw [if_pos h1]
    exact Or.inl rfl
  · rw [if_neg h1]
    have h1' : StmtDefinesVariable d varName = true := by
      simpa using h1
    by_cases h2 : d.line < cur
    · rw [if_pos h2]
      by_cases h3 : d.line > acc.2.1
      · rw [if_pos h3]
        exact Or.inr (Or.inl ⟨h1', h2, h3, rfl⟩)
      · rw [if_neg h3]
        exact Or.inl rfl
    · rw [if_neg h2]
      by_cases h4 : cli.loopNodeId ≠ 0
      · rw [if_pos h4]
        by_cases h5 : d.line ≥ cli.bodyStartLine ∧
            d.line ≤ cli.bodyEndLine
        · rw [if_pos h5]
          by_cases h6 : d.line > acc.2.2.2
          · rw [if_pos h6]
            exact Or.inr (Or.inr ⟨h1', h2, h4, h5.1, h5.2, h6, rfl⟩)
          · rw [if_neg h6]
            exact Or.inl rfl
        · rw [if_neg h5]
          exact Or.inl rfl
      · rw [if_neg h4]
        exact Or.inl rfl

theorem nearest_nbd_spec (varName : String) (cur : Int) (cli : LoopInfo)
    (fd : List MStmt) :
    ∀ x, (FindNearestDefinitions fd varName cur cli).1 = some x →
    x ∈ fd ∧ StmtDefinesVariable x varName = true ∧ x.line < cur ∧
    (FindNearestDefinitions fd varName cur cli).2.1 = x.line := by
  unfold FindNearestDefinitions
  refine @List.foldlRecOn _ _
    (fun acc : Option MStmt × Int × Option MStmt × Int =>
      ∀ x, acc.1 = some x → x ∈ fd ∧ StmtDefinesVariable x varName = true ∧
        x.line < cur ∧ acc.2.1 = x.line) fd _ (none, -1, none, -1)
    ?_ ?_
  · intro x hx
    simp at hx
  · intro acc hacc d hd x hx
    rcases nearestStep_cases varName cur cli acc d with h | h | h
    · rw [h] at hx ⊢
      exact hacc x hx
    · obtain ⟨hdef, hlt, _, heq⟩ := h
      rw [heq] at hx ⊢
      simp only at hx
      injection hx with hx1
      exact ⟨hx1 ▸ hd, hx1 ▸ hdef, hx1 ▸ hlt, by rw [← hx1]⟩
    · obtain ⟨_, _, _, _, _, _, heq⟩ := h
      rw [heq] at hx ⊢
      exact hacc x hx

theorem nearest_nbl_max (varName : String) (cur : Int) (cli : LoopInfo) :
    ∀ (fd : List MStmt)
      (acc : Option MStmt × Int × Option MStmt × Int),
    ∀ x ∈ fd, StmtDefinesVariable x varName = true → x.line < cur →
    x.line ≤ (fd.foldl (nearestStep varName cur cli) acc).2.1 := by
  have hmono : ∀ (fd : List MStmt) acc,
      acc.2.1 ≤ (fd.foldl (nearestStep varName cur cli) acc).2.1 := by
    intro fd
    induction fd with
    | nil => intro acc; exact le_refl _
    | cons d rest ih =>
      intro acc
      rw [List.foldl_cons]
      refine le_trans ?_ (ih (nearestStep varName cur cli acc d))
      rcases nearestStep_cases varName cur cli acc d with h | h | h
      · rw [h]
      · obtain ⟨_, _, hgt, heq⟩ := h
        rw [heq]
        exact le_of_lt hgt
      · obtain ⟨_, _, _, _, _, _, heq⟩ := h
        rw [heq]
  intro fd
  induction fd with
  | nil => intro acc x hx; simp at hx
  | cons d rest ih =>
    intro acc x hx hdef hlt
    rw [List.foldl_cons]
    rcases List.mem_cons.mp hx with h1 | h1
    · subst h1
      refine le_trans ?_ (hmono rest (nearestStep varName cur cli acc x))
      rcases nearestStep_cases varName cur cli acc x with h | h | h
      · -- the step kept the accumulator: the candidate was not larger
        rw [h]
        unfold nearestStep at h
        rw [if_neg (by simp [hdef])] at h
        rw [if_pos hlt] at h
        by_cases h3 : x.line > acc.2.1
        · rw [if_pos h3] at h
          -- impossible: the update changed the accumulator
          exfalso
          have := congrArg (fun t => t.2.1) h
          simp only at this
          rw [this] at h3
          exact lt_irrefl _ h3
        · exact le_of_not_lt h3
      · obtain ⟨_, _, _, heq⟩ := h
        rw [heq]
      · obtain ⟨_, hnlt, _, _, _, _, _⟩ := h
        exact absurd hlt hnlt
    · exact ih (nearestStep varName cur cli acc d) x h1 hdef hlt

theorem nearest_lc_spec (varName : String) (cur : Int) (cli : LoopInfo)
    (fd : List MStmt) :
    ∀ x, (FindNearestDefinitions fd varName cur cli).2.2.1 = some x →
    x ∈ fd ∧ StmtDefinesVariable x varName = true ∧
    cli.loopNodeId ≠ 0 ∧ cli.bodyStartLine ≤ x.line ∧
    x.line ≤ cli.bodyEndLine ∧ cur ≤ x.line := by
  unfold FindNearestDefinitions
  refine @List.foldlRecOn _ _
    (fun acc : Option MStmt × Int × Option MStmt × Int =>
      ∀ x, acc.2.2.1 = some x → x ∈ fd ∧
        StmtDefinesVariable x varName = true ∧ cli.loopNodeId ≠ 0 ∧
        cli.bodyStartLine ≤ x.line ∧ x.line ≤ cli.bodyEndLine ∧
        cur ≤ x.line) fd _ (none, -1, none, -1) ?_ ?_
  · intro x hx
    simp at hx
  · intro acc hacc d hd x hx
    rcases nearestStep_cases varName cur cli acc d with h | h | h
    · rw [h] at hx
      exact hacc x hx
    · obtain ⟨_, _, _, heq⟩ := h
      rw [heq] at hx
      exact hacc x hx
    · obtain ⟨hdef, hnlt, hloop, hlo, hhi, _, heq⟩ := h
      rw [heq] at hx
      simp only at hx
      injection hx with hx1
      exact ⟨hx1 ▸ hd, hx1 ▸ hdef, hloop, hx1 ▸ hlo, hx1 ▸ hhi,
        hx1 ▸ le_of_not_lt hnlt⟩

theorem mem_foldr_append {α β : Type} (f : α → List β) :
    ∀ (l : List α) (e : β),
    e ∈ l.foldr (fun m acc => f m ++ acc) [] ↔ ∃ m ∈ l, e ∈ f m := by
  intro l e
  induction l with
  | nil => simp
  | cons x xs ih => simp [List.foldr_cons, List.mem_append, ih]

theorem lcDep_char {cli : LoopInfo} {ml cl : Int}
    (h : IsLoopCarriedDependency cli ml cl = true) :
    cli.loopNodeId ≠ 0 ∧ cli.bodyStartLine ≤ ml ∧ ml ≤ cli.bodyEndLine ∧
    cl ≤ ml := by
  unfold IsLoopCarriedDependency at h
  by_cases h0 : cli.loopNodeId = 0
  · rw [if_pos h0] at h
    exact absurd h (by simp)
  · rw [if_neg h0] at h
    simp only [decide_eq_true_eq, ge_iff_le] at h
    exact ⟨h0, h.1, h.2.1, h.2.2⟩

theorem pvm_mem_char (env : TraceEnv) (cli : LoopInfo) (m : MStmt)
    (varName : String) (varNodeId : Nat) (useStmt : MStmt) :
    ∀ e ∈ ProcessVariableModification env cli m varName varNodeId useStmt,
    (e.kind = ComputeEdgeKind.LoopCarried ∧
      IsLoopCarriedDependency cli m.line useStmt.line = true ∧
      e.src = env.nodeOf m.sid) ∨
    (e.kind = ComputeEdgeKind.DataFlow ∧ m.sid ≠ useStmt.sid ∧
      m.line < useStmt.line ∧
      e.src = GetVariableNodeFromModStmt env m (env.nodeOf m.sid)) := by
  intro e he
  simp only [ProcessVariableModification] at he
  by_cases h1 : m.sid = useStmt.sid
  · rw [if_pos h1] at he
    simp at he
  · rw [if_neg h1] at he
    by_cases h2 : env.nodeOf m.sid = 0
    · rw [if_pos h2] at he
      simp at he
    · rw [if_neg h2] at he
      by_cases h3 : IsLoopCarriedDependency cli m.line useStmt.line = true
      · rw [if_pos h3] at he
        rw [List.mem_singleton] at he
        subst he
        exact Or.inl ⟨rfl, h3, rfl⟩
      · rw [if_neg h3] at he
        by_cases h4 : m.line < useStmt.line
        · rw [if_pos h4] at he
          rw [List.mem_singleton] at he
          subst he
          exact Or.inr ⟨rfl, h1, h4, rfl⟩
        · rw [if_neg h4] at he
          simp at he

theorem pdn_mem_char (env : TraceEnv) (d : MStmt) (varName : String)
    (varNodeId : Nat) (k : ComputeEdgeKind) :
    ∀ e ∈ ProcessDefinitionNode env d varName varNodeId k,
    e.kind = k ∧ e.src = env.nodeOf d.sid ∧ e.tgt = varNodeId := by
  intro e he
  simp only [ProcessDefinitionNode] at he
  by_cases h1 : env.nodeOf d.sid = 0
  · rw [if_pos h1] at he
    simp at he
  · rw [if_neg h1] at he
    rw [List.mem_singleton] at he
    subst he
    exact ⟨rfl, rfl, rfl⟩

theorem psvre_mem_char (env : TraceEnv) (cli : LoopInfo) (loopLine : Int)
    (body : List MStmt) (varRef : SRef) (varNodeId : Nat) (useStmt : MStmt)
    (interprocDefs : List MStmt) :
    ∀ e ∈ ProcessSingleVariableReferenceEdges env cli loopLine body varRef
      varNodeId useStmt interprocDefs,
    (∃ m ∈ FindVariableModifications body varRef.decl,
      e ∈ ProcessVariableModification env cli m varRef.name varNodeId
        useStmt) ∨
    (∃ d, (FindNearestDefinitions (FilterKilledDefinitions
        (if interprocDefs.isEmpty
          then FindDefinitionsInFunction body varRef.name
          else interprocDefs) useStmt.line varRef.name)
        varRef.name useStmt.line cli).1 = some d ∧
      e ∈ ProcessDefinitionNode env d varRef.name varNodeId
        ComputeEdgeKind.DataFlow) ∨
    (∃ d, (FindNearestDefinitions (FilterKilledDefinitions
        (if interprocDefs.isEmpty
          then FindDefinitionsInFunction body varRef.name
          else interprocDefs) useStmt.line varRef.name)
        varRef.name useStmt.line cli).2.2.1 = some d ∧
      e ∈ ProcessDefinitionNode env d varRef.name varNodeId
        ComputeEdgeKind.LoopCarried) := by
  intro e he
  simp only [ProcessSingleVariableReferenceEdges] at he
  by_cases hlv : IsLoopVariable cli loopLine varRef.name useStmt.line = true
  · rw [if_pos hlv] at he
    simp at he
  · rw [if_neg hlv] at he
    by_cases hvn : varNodeId = 0
    · rw [if_pos hvn] at he
      exact Or.inl ((mem_foldr_append _ _ _).1 he)
    · rw [if_neg hvn] at he
      set r := FindNearestDefinitions (FilterKilledDefinitions
        (if interprocDefs.isEmpty
          then FindDefinitionsInFunction body varRef.name
          else interprocDefs) useStmt.line varRef.name)
        varRef.name useStmt.line cli with hr
      clear_value r
      obtain ⟨nbd, nbl, lcd, mll⟩ := r
      rcases List.mem_append.1 he with h | h2
      · rcases List.mem_append.1 h with h1 | h2
        · exact Or.inl ((mem_foldr_append _ _ _).1 h1)
        · cases nbd with
          | none =>
            dsimp only at h2
            simp at h2
          | some d =>
            dsimp only at h2
            exact Or.inr (Or.inl ⟨d, rfl, h2⟩)
      · cases lcd with
          | none =>
            dsimp only at h2
            simp at h2
          | some d =>
            cases nbd with
            | none =>
              dsimp only at h2
              exact Or.inr (Or.inr ⟨d, rfl, h2⟩)
            | some nb =>
              dsimp only at h2
              by_cases hsid : d.sid ≠ nb.sid
              · rw [if_pos hsid] at h2
                exact Or.inr (Or.inr ⟨d, rfl, h2⟩)
              · rw [if_neg hsid] at h2
                simp at h2

/-- C4 (amended): characterization of the edges one backward-trace call
adds for a variable use.  (i) Every LoopCarried edge comes from a
modification or definition inside the current loop body at or after the
use line, and only when a loop is current.  (ii) Every DataFlow edge is
either produced by the modification scan — from some modification of the
referenced declaration strictly before the use, killed or not — or from
the nearest surviving definition chosen by `FindNearestDefinitions`.
(iii) That nearest definition is the lexically last definition of the
variable before the use among the kill-filtered candidates. -/
theorem backward_trace_selection (env : TraceEnv) (cli : LoopInfo)
    (loopLine : Int) (body : List MStmt) (varRef : SRef) (varNodeId : Nat)
    (useStmt : MStmt) (interprocDefs : List MStmt) :
    (∀ e ∈ ProcessSingleVariableReferenceEdges env cli loopLine body varRef
        varNodeId useStmt interprocDefs,
      e.kind = ComputeEdgeKind.LoopCarried →
      cli.loopNodeId ≠ 0 ∧ ∃ d : MStmt,
        cli.bodyStartLine ≤ d.line ∧ d.line ≤ cli.bodyEndLine ∧
        useStmt.line ≤ d.line ∧ e.src = env.nodeOf d.sid) ∧
    (∀ e ∈ ProcessSingleVariableReferenceEdges env cli loopLine body varRef
        varNodeId useStmt interprocDefs,
      e.kind = ComputeEdgeKind.DataFlow →
      (∃ m ∈ FindVariableModifications body varRef.decl,
        m.sid ≠ useStmt.sid ∧ m.line < useStmt.line ∧
        e.src = GetVariableNodeFromModStmt env m (env.nodeOf m.sid)) ∨
      (∃ d, (FindNearestDefinitions (FilterKilledDefinitions
          (if interprocDefs.isEmpty
            then FindDefinitionsInFunction body varRef.name
            else interprocDefs) useStmt.line varRef.name)
          varRef.name useStmt.line cli).1 = some d ∧
        e.src = env.nodeOf d.sid)) ∧
    (∀ d, (FindNearestDefinitions (FilterKilledDefinitions
        (if interprocDefs.isEmpty
          then FindDefinitionsInFunction body varRef.name
          else interprocDefs) useStmt.line varRef.name)
        varRef.name useStmt.line cli).1 = some d →
      d ∈ FilterKilledDefinitions
        (if interprocDefs.isEmpty
          then FindDefinitionsInFunction body varRef.name
          else interprocDefs) useStmt.line varRef.name ∧
      StmtDefinesVariable d varRef.name = true ∧
      d.line < useStmt.line ∧
      ∀ x ∈ FilterKilledDefinitions
          (if interprocDefs.isEmpty
            then FindDefinitionsInFunction body varRef.name
            else interprocDefs) useStmt.line varRef.name,
        StmtDefinesVariable x varRef.name = true →
        x.line < useStmt.line → x.line ≤ d.line) := by
  refine ⟨?_, ?_, ?_⟩
  · intro e he hk
    rcases psvre_mem_char env cli loopLine body varRef varNodeId useStmt
        interprocDefs e he with ⟨m, hm, hpvm⟩ | ⟨d, _, hpdn⟩ |
        ⟨d, hd, hpdn⟩
    · rcases pvm_mem_char env cli m varRef.name varNodeId useStmt e hpvm
          with ⟨_, hlc, hsrc⟩ | ⟨hk2, _, _, _⟩
      · obtain ⟨h0, h1, h2, h3⟩ := lcDep_char hlc
        exact ⟨h0, m, h1, h2, h3, hsrc⟩
      · rw [hk] at hk2
        cases hk2
    · obtain ⟨hk2, _, _⟩ := pdn_mem_char env d varRef.name varNodeId _ e
        hpdn
      rw [hk] at hk2
      cases hk2
    · obtain ⟨_, hsrc, _⟩ := pdn_mem_char env d varRef.name varNodeId _ e
        hpdn
      obtain ⟨_, _, h0, hlo, hhi, hcur⟩ := nearest_lc_spec varRef.name
        useStmt.line cli _ d hd
      exact ⟨h0, d, hlo, hhi, hcur, hsrc⟩
  · intro e he hk
    rcases psvre_mem_char env cli loopLine body varRef varNodeId useStmt
        interprocDefs e he with ⟨m, hm, hpvm⟩ | ⟨d, hd, hpdn⟩ |
        ⟨d, _, hpdn⟩
    · rcases pvm_mem_char env cli m varRef.name varNodeId useStmt e hpvm
          with ⟨hk2, _, _⟩ | ⟨_, h1, h2, h3⟩
      · rw [hk] at hk2
        cases hk2
      · exact Or.inl ⟨m, hm, h1, h2, h3⟩
    · obtain ⟨_, hsrc, _⟩ := pdn_mem_char env d varRef.name varNodeId _ e
        hpdn
      exact Or.inr ⟨d, hd, hsrc⟩
    · obtain ⟨hk2, _, _⟩ := pdn_mem_char env d varRef.name varNodeId _ e
        hpdn
      rw [hk] at hk2
      cases hk2
  · intro d hd
    obtain ⟨hmem, hdef, hlt, hline⟩ := nearest_nbd_spec varRef.name
      useStmt.line cli _ d hd
    refine ⟨hmem, hdef, hlt, ?_⟩
    intro x hx hxdef hxlt
    have hmax := nearest_nbl_max varRef.name useStmt.line cli _
      (none, -1, none, -1) x hx hxdef hxlt
    rw [← hline]
    exact hmax

/-! ### ICFG parameter-node creation (`CPGBuilder.cpp`)

`CPGContext` keeps one node arena per canonical function declaration in
`icfgNodes`; nodes are heap objects identified here by a `nid` drawn from
a counter.  `CreateICFGNode` plus the immediate field assignments through
the returned pointer are folded into one insertion of the fully
initialized node. -/

/-- `ICFGNodeKind` (`CPGBase.h`). -/
inductive ICFGNodeKind where
| Entry | Exit | Statement | CallSite | ReturnSite
| FormalIn | FormalOut | ActualIn | ActualOut
deriving DecidableEq, Repr

/-- `ICFGEdgeKind` (`CPGBase.h`); `BranchTrue`/`BranchFalse` stand for the
C++ `True`/`False` enumerators. -/
inductive ICFGEdgeKind where
| Intraprocedural | Call | Return | ParamIn | ParamOut
| BranchTrue | BranchFalse | Unconditional
deriving DecidableEq, Repr

/-- `ICFGNode` (the fields `CreateParameterNodes` touches). -/
structure ICFGNode where
  nid : Nat
  kind : ICFGNodeKind
  func : Nat
  paramIndex : Int := -1
  paramName : String := ""
  callExprId : Nat := 0
  calleeId : Nat := 0
  successors : List (Nat × ICFGEdgeKind) := []
  predecessors : List (Nat × ICFGEdgeKind) := []
deriving DecidableEq

/-- The `CPGContext` state touched by call-site linking: the
per-canonical-declaration node arenas and the canonicalization map
(`getCanonicalDecl`). -/
structure ICFGState where
  canon : Nat → Nat
  nextNid : Nat := 0
  icfgNodes : List (Nat × List ICFGNode) := []

/-- `CPGContext::CreateICFGNode` fused with the caller's immediate field
setup: push the node onto `icfgNodes[func->getCanonicalDecl()]`. -/
def CreateICFGNodeInit (st : ICFGState) (node0 : ICFGNode) : ICFGState :=
  { st with
    nextNid := st.nextNid + 1,
    icfgNodes := AL.upsert (st.canon node0.func)
      (fun l => l ++ [{ node0 with nid := st.nextNid }]) [] st.icfgNodes }

/-- Apply a node transformation across all arenas (pointer mutation of a
node object reaches it wherever it is stored). -/
def mapICFGNodes (f : ICFGNode → ICFGNode) (st : ICFGState) : ICFGState :=
  { st with icfgNodes := st.icfgNodes.map (fun q => (q.1, q.2.map f)) }

/-- `CPGContext::AddICFGEdge`: append to the source's successors and the
target's predecessors. -/
def AddICFGEdge (st : ICFGState) (fromNid toNid : Nat)
    (kind : ICFGEdgeKind) : ICFGState :=
  let st1 := mapICFGNodes (fun n =>
    if n.nid = fromNid then
      { n with successors := n.successors ++ [(toNid, kind)] } else n) st
  mapICFGNodes (fun n =>
    if n.nid = toNid then
      { n with predecessors := n.predecessors ++ [(fromNid, kind)] } else n)
    st1

/-- `CPGContext::FindFormalInNode`: first `FormalIn` node with the given
parameter index in the callee's arena (looked up under the canonical
declaration). -/
def FindFormalInNode (st : ICFGState) (callee : Nat) (paramIndex : Int) :
    Option ICFGNode :=
  match AL.find? (st.canon callee) st.icfgNodes with
  | none => none
  | some l => l.find? (fun n =>
      decide (n.kind = ICFGNodeKind.FormalIn ∧ n.paramIndex = paramIndex))

/-- The `for (unsigned i = 0; i < numToProcess; ++i)` loop of
`CreateParameterNodes`, recursing over the remaining indices: always
create a fresh `ActualIn` in the caller, lazily create or reuse the
callee's `FormalIn`, then add the two ParamIn edges
`callNode → ActualIn → FormalIn`. -/
def CreateParamNodesLoop (caller callee callNodeNid callExprId : Nat)
    (args params : List String) :
    List Nat → ICFGState → ICFGState
| [], st => st
| i :: rest, st =>
  let actualNid := st.nextNid
  let st1 := CreateICFGNodeInit st
    { nid := 0, kind := .ActualIn, func := caller, paramIndex := (i : Int),
      paramName := args.getD i "", callExprId := callExprId,
      calleeId := callee }
  match FindFormalInNode st1 callee (i : Int) with
  | some formal =>
    let st2 := AddICFGEdge st1 callNodeNid actualNid .ParamIn
    let st3 := AddICFGEdge st2 actualNid formal.nid .ParamIn
    CreateParamNodesLoop caller callee callNodeNid callExprId args params
      rest st3
  | none =>
    let formalNid := st1.nextNid
    let st2 := CreateICFGNodeInit st1
      { nid := 0, kind := .FormalIn, func := callee,
        paramIndex := (i : Int), paramName := params.getD i "" }
    let st3 := AddICFGEdge st2 callNodeNid actualNid .ParamIn
    let st4 := AddICFGEdge st3 actualNid formalNid .ParamIn
    CreateParamNodesLoop caller callee callNodeNid callExprId args params
      rest st4

/-- `CPGContext::CreateParameterNodes`: process the first
`min(numArgs, numParams)` argument/parameter positions. -/
def CreateParameterNodes (st : ICFGState)
    (caller callee callNodeNid callExprId : Nat)
    (args params : List String) : ICFGState :=
  CreateParamNodesLoop caller callee callNodeNid callExprId args params
    (List.range (min args.length params.length)) st

/-- The node arena of a canonical declaration key. -/
def arenaOf (st : ICFGState) (fk : Nat) : List ICFGNode :=
  AL.getD st.icfgNodes fk []

/-- Number of `FormalIn` nodes with the given parameter index in the
arena of `fk`. -/
def formalInCount (st : ICFGState) (fk : Nat) (idx : Int) : Nat :=
  (arenaOf st fk).countP (fun n =>
    decide (n.kind = ICFGNodeKind.FormalIn ∧ n.paramIndex = idx))

/-- Number of `ActualIn` nodes in the arena of `fk`. -/
def actualInCount (st : ICFGState) (fk : Nat) : Nat :=
  (arenaOf st fk).countP (fun n => decide (n.kind = ICFGNodeKind.ActualIn))

/-! #### Supporting lemmas for claim C6 -/

theorem AL.find?_map_val {α β : Type} (g : α → β) (k : Nat) :
    ∀ (l : List (Nat × α)),
    AL.find? k (l.map (fun q => (q.1, g q.2))) = (AL.find? k l).map g := by
  intro l
  induction l with
  | nil => rfl
  | cons p rest ih =>
    obtain ⟨k', v⟩ := p
    by_cases hk : k' = k <;> simp [AL.find?, hk, ih]

theorem arenaOf_mapICFGNodes (f : ICFGNode → ICFGNode) (st : ICFGState)
    (fk : Nat) :
    arenaOf (mapICFGNodes f st) fk = (arenaOf st fk).map f := by
  unfold arenaOf mapICFGNodes AL.getD
  simp only
  rw [AL.find?_map_val]
  cases AL.find? fk st.icfgNodes <;> simp

theorem countP_map_preserved {p : ICFGNode → Bool}
    {f : ICFGNode → ICFGNode} (hf : ∀ n, p (f n) = p n)
    (l : List ICFGNode) : (l.map f).countP p = l.countP p := by
  rw [List.countP_map]
  exact List.countP_congr (fun a _ => by simp [hf a])

theorem addICFGEdge_formalInCount (st : ICFGState) (a b : Nat)
    (kind : ICFGEdgeKind) (fk : Nat) (idx : Int) :
    formalInCount (AddICFGEdge st a b kind) fk idx =
      formalInCount st fk idx := by
  unfold AddICFGEdge formalInCount
  rw [arenaOf_mapICFGNodes, arenaOf_mapICFGNodes]
  rw [countP_map_preserved, countP_map_preserved]
  · intro n
    by_cases h : n.nid = a <;> simp [h]
  · intro n
    by_cases h : n.nid = b <;> simp [h]

theorem addICFGEdge_actualInCount (st : ICFGState) (a b : Nat)
    (kind : ICFGEdgeKind) (fk : Nat) :
    actualInCount (AddICFGEdge st a b kind) fk = actualInCount st fk := by
  unfold AddICFGEdge actualInCount
  rw [arenaOf_mapICFGNodes, arenaOf_mapICFGNodes]
  rw [countP_map_preserved, countP_map_preserved]
  · intro n
    by_cases h : n.nid = a <;> simp [h]
  · intro n
    by_cases h : n.nid = b <;> simp [h]

theorem addICFGEdge_canon (st : ICFGState) (a b : Nat)
    (kind : ICFGEdgeKind) : (AddICFGEdge st a b kind).canon = st.canon :=
  rfl

theorem createInit_canon (st : ICFGState) (node0 : ICFGNode) :
    (CreateICFGNodeInit st node0).canon = st.canon := rfl

theorem createInit_arena_self (st : ICFGState) (node0 : ICFGNode) :
    arenaOf (CreateICFGNodeInit st node0) (st.canon node0.func) =
      arenaOf st (st.canon node0.func) ++
        [{ node0 with nid := st.nextNid }] := by
  unfold CreateICFGNodeInit arenaOf
  exact AL.getD_upsert_self _

theorem createInit_arena_ne (st : ICFGState) (node0 : ICFGNode) (fk : Nat)
    (h : fk ≠ st.canon node0.func) :
    arenaOf (CreateICFGNodeInit st node0) fk = arenaOf st fk := by
  unfold CreateICFGNodeInit arenaOf
  exact AL.getD_upsert_ne h _

theorem formalInCount_eq_zero_of_find_none (st : ICFGState) (callee : Nat)
    (idx : Int) (h : FindFormalInNode st callee idx = none) :
    formalInCount st (st.canon callee) idx = 0 := by
  unfold FindFormalInNode at h
  unfold formalInCount arenaOf AL.getD
  cases hf : AL.find? (st.canon callee) st.icfgNodes with
  | none => simp
  | some l =>
    rw [hf] at h
    simp only
    apply List.countP_eq_zero.mpr
    intro a ha
    have := List.find?_eq_none.mp h a ha
    simpa using this

/-- C6: for every starting `CPGContext` state in which each callee has at
most one `FormalIn` node per parameter index, `CreateParameterNodes`
preserves that invariant (the `FormalIn` is created lazily on first use
and reused afterwards) while appending exactly
`min(numArgs, numParams)` fresh `ActualIn` nodes to the caller's arena. -/
theorem createParameterNodes_actualIn_fresh_formalIn_unique
    (st : ICFGState) (caller callee callNodeNid callExprId : Nat)
    (args params : List String)
    (hinv : ∀ fk idx, formalInCount st fk idx ≤ 1) :
    (∀ fk idx, formalInCount
      (CreateParameterNodes st caller callee callNodeNid callExprId args
        params) fk idx ≤ 1) ∧
    (actualInCount
      (CreateParameterNodes st caller callee callNodeNid callExprId args
        params) (st.canon caller) =
      actualInCount st (st.canon caller) +
        min args.length params.length) := by
  have main : ∀ (ids : List Nat) (s : ICFGState),
      (∀ fk idx, formalInCount s fk idx ≤ 1) →
      ((CreateParamNodesLoop caller callee callNodeNid callExprId args
          params ids s).canon = s.canon) ∧
      (∀ fk idx, formalInCount
        (CreateParamNodesLoop caller callee callNodeNid callExprId args
          params ids s) fk idx ≤ 1) ∧
      (∀ fk, actualInCount
        (CreateParamNodesLoop caller callee callNodeNid callExprId args
          params ids s) fk =
        actualInCount s fk +
          (if fk = s.canon caller then ids.length else 0)) := by
    intro ids
    induction ids with
    | nil =>
      intro s hs
      refine ⟨rfl, hs, ?_⟩
      intro fk
      by_cases h : fk = s.canon caller <;> simp [CreateParamNodesLoop, h]
    | cons i rest ih =>
      intro s hs
      rw [CreateParamNodesLoop]
      -- the ActualIn insertion
      set aNode : ICFGNode :=
        { nid := 0, kind := .ActualIn, func := caller,
          paramIndex := (i : Int), paramName := args.getD i "",
          callExprId := callExprId, calleeId := callee } with haNode
      set s1 := CreateICFGNodeInit s aNode with hs1
      have hs1canon : s1.canon = s.canon := rfl
      have hs1formal : ∀ fk idx,
          formalInCount s1 fk idx = formalInCount s fk idx := by
        intro fk idx
        unfold formalInCount
        by_cases h : fk = s.canon caller
        · rw [hs1, h]
          rw [show s.canon caller = s.canon aNode.func from rfl,
            createInit_arena_self]
          rw [List.countP_append]
          simp [haNode]
        · rw [hs1, createInit_arena_ne]
          exact h
      have hs1actual : ∀ fk, actualInCount s1 fk =
          actualInCount s fk + (if fk = s.canon caller then 1 else 0) := by
        intro fk
        unfold actualInCount
        by_cases h : fk = s.canon caller
        · rw [hs1, h]
          rw [show s.canon caller = s.canon aNode.func from rfl,
            createInit_arena_self]
          rw [List.countP_append]
          simp [haNode, h]
        · rw [hs1, createInit_arena_ne]
          · simp [h]
          · exact h
      have hs1inv : ∀ fk idx, formalInCount s1 fk idx ≤ 1 := by
        intro fk idx
        rw [hs1formal]
        exact hs fk idx
      cases hff : FindFormalInNode s1 callee (i : Int) with
      | some formal =>
        -- reuse: only edges are added
        set s3 := AddICFGEdge (AddICFGEdge s1 callNodeNid s.nextNid
          .ParamIn) s.nextNid formal.nid .ParamIn with hs3
        have h3canon : s3.canon = s.canon := rfl
        have h3formal : ∀ fk idx,
            formalInCount s3 fk idx = formalInCount s fk idx := by
          intro fk idx
          rw [hs3, addICFGEdge_formalInCount, addICFGEdge_formalInCount,
            hs1formal]
        have h3actual : ∀ fk, actualInCount s3 fk =
            actualInCount s fk +
              (if fk = s.canon caller then 1 else 0) := by
          intro fk
          rw [hs3, addICFGEdge_actualInCount, addICFGEdge_actualInCount,
            hs1actual]
        have h3inv : ∀ fk idx, formalInCount s3 fk idx ≤ 1 := by
          intro fk idx
          rw [h3formal]
          exact hs fk idx
        obtain ⟨ihc, ihf, iha⟩ := ih s3 h3inv
        refine ⟨by rw [ihc, h3canon], ihf, ?_⟩
        intro fk
        rw [iha fk, h3actual fk, h3canon]
        by_cases h : fk = s.canon caller <;> simp [h] <;> omega
      | none =>
        -- lazily create the FormalIn
        set fNode : ICFGNode :=
          { nid := 0, kind := .FormalIn, func := callee,
            paramIndex := (i : Int), paramName := params.getD i "" } with
          hfNode
        set s2 := CreateICFGNodeInit s1 fNode with hs2
        have h2canon : s2.canon = s.canon := rfl
        have h2formal : ∀ fk idx, formalInCount s2 fk idx =
            formalInCount s fk idx +
              (if fk = s.canon callee ∧ idx = (i : Int) then 1 else 0) := by
          intro fk idx
          unfold formalInCount
          by_cases h : fk = s.canon callee
          · rw [hs2, h]
            rw [show s.canon callee = s1.canon fNode.func from rfl,
              createInit_arena_self]
            rw [List.countP_append]
            by_cases hidx : idx = (i : Int)
            · simp only [h, hidx, and_self, if_true]
              have := hs1formal fk idx
              unfold formalInCount at this
              rw [h, hidx] at this
              rw [show s1.canon fNode.func = s.canon callee from rfl]
              simp only [Bool.decide_and] at this
              simp [hfNode, this]
            · simp only [h, hidx, and_false, if_false]
              have := hs1formal fk idx
              unfold formalInCount at this
              rw [h] at this
              rw [show s1.canon fNode.func = s.canon callee from rfl]
              simp only [Bool.decide_and] at this
              simp [hfNode, hidx, this]
              exact fun hh => hidx hh.symm
          · rw [hs2, createInit_arena_ne]
            · have := hs1formal fk idx
              unfold formalInCount at this
              simp only [Bool.decide_and] at this
              simp [h, this]
            · exact h
        have h2actual : ∀ fk, actualInCount s2 fk =
            actualInCount s fk +
              (if fk = s.canon caller then 1 else 0) := by
          intro fk
          unfold actualInCount
          by_cases h : fk = s.canon callee
          · rw [hs2, h]
            rw [show s.canon callee = s1.canon fNode.func from rfl,
              createInit_arena_self]
            rw [List.countP_append]
            have := hs1actual fk
            unfold actualInCount at this
            rw [h] at this
            rw [show s1.canon fNode.func = s.canon callee from rfl]
            simp [hfNode, this, h]
          · rw [hs2, createInit_arena_ne]
            · have := hs1actual fk
              unfold actualInCount at this
              exact this
            · exact h
        have hzero : formalInCount s (s.canon callee) (i : Int) = 0 := by
          have := formalInCount_eq_zero_of_find_none s1 callee (i : Int) hff
          rw [hs1formal] at this
          exact this
        set s4 := AddICFGEdge (AddICFGEdge s2 callNodeNid s.nextNid
          .ParamIn) s.nextNid s1.nextNid .ParamIn with hs4
        have h4formal : ∀ fk idx, formalInCount s4 fk idx =
            formalInCount s2 fk idx := by
          intro fk idx
          rw [hs4, addICFGEdge_formalInCount, addICFGEdge_formalInCount]
        have h4actual : ∀ fk, actualInCount s4 fk =
            actualInCount s2 fk := by
          intro fk
          rw [hs4, addICFGEdge_actualInCount, addICFGEdge_actualInCount]
        have h4canon : s4.canon = s.canon := rfl
        have h4inv : ∀ fk idx, formalInCount s4 fk idx ≤ 1 := by
          intro fk idx
          rw [h4formal, h2formal]
          by_cases h : fk = s.canon callee ∧ idx = (i : Int)
          · rw [if_pos h, h.1, h.2, hzero]
          · rw [if_neg h]
            simpa using hs fk idx
        obtain ⟨ihc, ihf, iha⟩ := ih s4 h4inv
        refine ⟨by rw [ihc, h4canon], ihf, ?_⟩
        intro fk
        rw [iha fk, h4actual fk, h2actual fk, h4canon]
        by_cases h : fk = s.canon caller <;> simp [h] <;> omega
  obtain ⟨_, hf, ha⟩ := main
    (List.range (min args.length params.length)) st hinv
  refine ⟨hf, ?_⟩
  have := ha (st.canon caller)
  simpa using this

/-- C6 witness: two successive call sites into callee 5 (two parameters,
two arguments each) leave exactly one `FormalIn` per parameter index in
the callee's arena while the caller's arena gains two `ActualIn` nodes
per call. -/
theorem createParameterNodes_witness :
    formalInCount
      (CreateParameterNodes { canon := id } 1 5 100 200 ["a", "b"]
        ["x", "y"]) (({ canon := id } : ICFGState).canon 5) 0 ≤ 1 ∧
    actualInCount
      (CreateParameterNodes { canon := id } 1 5 100 200 ["a", "b"]
        ["x", "y"]) (({ canon := id } : ICFGState).canon 1) =
      actualInCount ({ canon := id } : ICFGState)
        (({ canon := id } : ICFGState).canon 1) +
      min (["a", "b"] : List String).length
        (["x", "y"] : List String).length := by
  have h := createParameterNodes_actualIn_fresh_formalIn_unique
    { canon := id } 1 5 100 200 ["a", "b"] ["x", "y"]
    (fun fk idx => by simp [formalInCount, arenaOf, AL.getD, AL.find?])
  exact ⟨h.1 (({ canon := id } : ICFGState).canon 5) 0, h.2⟩

/-! ### Claim C8 — recursion and depth cutoffs in `ProcessCalleeAnalysis`
(`ComputeGraphBuilderProcess.cpp`)

`AnalyzeCalleeBody` has exactly one call site, inside
`ProcessCalleeAnalysis`, guarded by the depth check
`currentCallDepth >= maxCallDepth` and by the canonical-declaration
membership test on `currentCallStack`.  The callee-body analysis itself is
abstracted as an arbitrary state transformer: the theorem holds for every
possible behaviour of `AnalyzeCalleeBody`. -/

/-- What `ProcessCalleeAnalysis` reads from `getDirectCallee`. -/
structure CalleeInfo where
  canonId : Nat
  hasBody : Bool
  isIntrinsic : Bool
deriving DecidableEq

/-- The `ComputeGraphBuilder` state touched by `ProcessCalleeAnalysis`. -/
structure BuilderState where
  enableInterprocedural : Bool
  currentCallDepth : Int
  maxCallDepth : Int
  currentCallStack : List Nat
  graph : ComputeGraph

/-- `ComputeGraphBuilder::ProcessCalleeAnalysis`.  `callExpr = none`
covers both a null `callExpr` and a null direct callee; the returned
`Bool` records whether `AnalyzeCalleeBody` was entered. -/
def ProcessCalleeAnalysis (analyzeBody : BuilderState → BuilderState)
    (st : BuilderState) (callExpr : Option CalleeInfo) (nodeId : Nat) :
    BuilderState × Bool :=
  match callExpr with
  | none => (st, false)
  | some callee =>
    if !st.enableInterprocedural ∨ st.currentCallDepth ≥ st.maxCallDepth then
      (st, false)
    else if !callee.hasBody then (st, false)
    else if callee.isIntrinsic then
      ({ st with
         graph := st.graph.NodeSetProperty nodeId "is_intrinsic" "true" },
       false)
    else if callee.canonId ∈ st.currentCallStack then (st, false)
    else
      let st1 := { st with
        currentCallStack := callee.canonId :: st.currentCallStack,
        currentCallDepth := st.currentCallDepth + 1 }
      let st2 := analyzeBody st1
      ({ st2 with
         currentCallDepth := st2.currentCallDepth - 1,
         currentCallStack := st2.currentCallStack.erase callee.canonId },
       true)

/-- C8: whatever `AnalyzeCalleeBody` would do, `ProcessCalleeAnalysis`
never enters it when the callee's canonical declaration is already on
`currentCallStack` or when `currentCallDepth` has reached `maxCallDepth`;
the cutoff leaves the graph's edges and node IDs, the call stack and the
call depth unchanged, producing no inlined sub-graph and no edge into the
recursing callee. -/
theorem processCalleeAnalysis_cutoff_silent
    (analyzeBody : BuilderState → BuilderState) (st : BuilderState)
    (callee : CalleeInfo) (nodeId : Nat)
    (hcut : callee.canonId ∈ st.currentCallStack ∨
      st.currentCallDepth ≥ st.maxCallDepth) :
    (ProcessCalleeAnalysis analyzeBody st (some callee) nodeId).2 = false ∧
    (ProcessCalleeAnalysis analyzeBody st (some callee) nodeId).1.graph.edges
      = st.graph.edges ∧
    ((ProcessCalleeAnalysis analyzeBody st (some callee)
        nodeId).1.graph.nodes.map Prod.fst)
      = st.graph.nodes.map Prod.fst ∧
    (ProcessCalleeAnalysis analyzeBody st (some callee)
        nodeId).1.currentCallStack = st.currentCallStack ∧
    (ProcessCalleeAnalysis analyzeBody st (some callee)
        nodeId).1.currentCallDepth = st.currentCallDepth := by
  unfold ProcessCalleeAnalysis
  by_cases h1 : !st.enableInterprocedural ∨
      st.currentCallDepth ≥ st.maxCallDepth
  · simp only [if_pos h1]
    simp
  · simp only [if_neg h1]
    have hstack : callee.canonId ∈ st.currentCallStack := by
      rcases hcut with h | h
      · exact h
      · exact absurd (Or.inr h) h1
    by_cases h2 : !callee.hasBody
    · simp only [if_pos h2]
      simp
    · simp only [if_neg h2]
      by_cases h3 : callee.isIntrinsic
      · simp only [if_pos h3]
        simp [ComputeGraph.NodeSetProperty, AL.modify_map_fst]
      · simp only [if_neg h3, if_pos hstack]
        simp

/-- C8 witness: the cutoff theorem applied to a concrete recursive call
(canonical declaration 7 already on the stack). -/
theorem processCalleeAnalysis_cutoff_silent_witness :
    (ProcessCalleeAnalysis id
      { enableInterprocedural := true, currentCallDepth := 1,
        maxCallDepth := 3, currentCallStack := [7], graph := c9Graph }
      (some { canonId := 7, hasBody := true, isIntrinsic := false })
      5).2 = false := by
  have h := processCalleeAnalysis_cutoff_silent id
    { enableInterprocedural := true, currentCallDepth := 1,
      maxCallDepth := 3, currentCallStack := [7], graph := c9Graph }
    { canonId := 7, hasBody := true, isIntrinsic := false } 5
    (Or.inl (by decide))
  exact h.1

/-! ### Claim C10 — `HasDataFlowPath` on identical source and sink
(`CPGAnnotation.cpp`)

The worklist loop dequeues the source and compares it against the sink
before looking at any defined variable or use, so `HasDataFlowPath(s, s,
var)` is true for every statement and every filter.  Statements are
embedded as numeric IDs and the PDG-derived `GetUses`/`GetDefinedVars`
tables as arbitrary functions; the unbounded `while` loop takes explicit
fuel (every pop consumes one unit), which the theorem quantifies over. -/

/-- The def/use tables `HasDataFlowPath` consults. -/
structure DataFlowEnv where
  uses : Nat → String → List Nat
  definedVars : Nat → List String

/-- `CPGContext::EnqueueVariableUses`: push unvisited uses of `var` at
`current`, marking them visited. -/
def EnqueueVariableUses (env : DataFlowEnv) (current : Nat) (var : String)
    (worklist visited : List Nat) : List Nat × List Nat :=
  (env.uses current var).foldl
    (fun s use =>
      if use ∈ s.2 then s else (s.1 ++ [use], s.2 ++ [use]))
    (worklist, visited)

/-- `CPGContext::ProcessDefinedVarsForPath`: for each variable defined at
`current` that passes the name filter, enqueue its uses. -/
def ProcessDefinedVarsForPath (env : DataFlowEnv) (current : Nat)
    (varName : String) (worklist visited : List Nat) :
    List Nat × List Nat :=
  (env.definedVars current).foldl
    (fun s var =>
      if varName ≠ "" ∧ var ≠ varName then s
      else EnqueueVariableUses env current var s.1 s.2)
    (worklist, visited)

/-- The `while (!worklist.empty())` loop of `CPGContext::HasDataFlowPath`. -/
def hasDataFlowPathLoop (env : DataFlowEnv) (sink : Nat)
    (varName : String) : Nat → List Nat → List Nat → Bool
| 0, _, _ => false
| _ + 1, [], _ => false
| fuel + 1, current :: rest, visited =>
  if current = sink then true
  else
    let s := ProcessDefinedVarsForPath env current varName rest visited
    hasDataFlowPathLoop env sink varName fuel s.1 s.2

/-- `CPGContext::HasDataFlowPath`: seed the worklist and visited set with
the source and run the loop. -/
def HasDataFlowPath (env : DataFlowEnv) (fuel : Nat)
    (source sink : Nat) (varName : String) : Bool :=
  hasDataFlowPathLoop env sink varName fuel [source] [source]

/-- C10: for every statement `s`, every variable-name filter (including
the empty one), every def/use environment and every positive fuel,
`HasDataFlowPath(s, s, var)` returns true: the source is dequeued and
found equal to the sink before any defined variable is examined. -/
theorem hasDataFlowPath_source_equals_sink
    (env : DataFlowEnv) (fuel : Nat) (s : Nat) (varName : String) :
    HasDataFlowPath env (fuel + 1) s s varName = true := by
  unfold HasDataFlowPath hasDataFlowPathLoop
  simp

end CG
